import Mathlib

/-!
Shallow embedding of the crawler in `src/index.ts` (NalinDalal/crawler-bun).

The embedding covers the three core components the specification is about:

* the URL Frontier (`URLFrontier`: `addURL`, `getNextURL`, `getFromBackQueue`,
  `isEmpty`), including the inner sorted-insertion queue (`pqEnqueue`, the
  `PriorityQueue.enqueue` method of the source);
* the deduplication layer (`URLStorage` for visited URLs, `ContentStorage`
  for crawl results keyed by URL plus the set of seen content hashes);
* the orchestration loop (`WebCrawler.crawl`): seed insertion (`addSeeds`),
  the per-iteration body after a URL has been dispatched (`processURL`), and
  the fuelled main loop (`crawlLoop`), which also records a log of dispatch
  events for stating temporal properties.

JavaScript `Map`s are embedded as association lists in insertion order
(`mapSet` mirrors `Map.set`: replace in place if the key exists, append
otherwise); JavaScript `Set`s as duplicate-free lists in insertion order
(`setAdd`). `Date.now()` values are passed in explicitly as `Nat`
timestamps; the politeness comparison `now - lastAccess >= politenessDelay`
is computed in `Int`, exactly as JavaScript number subtraction behaves.
The external collaborators (fetcher, HTML parser, URL filter, host
extraction, SHA-256) are parameters of the orchestration model (`CrawlEnv`),
since they are out of scope of the specification's core contract.
-/

/-- The `URLInfo` record from the source (the spec's PendingURL). -/
structure URLInfo where
  url : String
  priority : Int
  depth : Nat
  host : String
  timestamp : Nat
deriving DecidableEq

/-- The `CrawlResult` record from the source (the spec's CrawlRecord). -/
structure CrawlResult where
  url : String
  content : String
  links : List String
  statusCode : Nat
  contentType : String
  hash : String
deriving DecidableEq

/-- Association-list lookup, mirroring JavaScript `Map.get`. -/
def lookupA {α : Type} (m : List (String × α)) (k : String) : Option α :=
  match m with
  | [] => none
  | (k', v) :: rest => if k' = k then some v else lookupA rest k

/-- JavaScript `Map.set`: replace the value in place if the key exists,
append a new entry otherwise. -/
def mapSet {α : Type} (m : List (String × α)) (k : String) (v : α) :
    List (String × α) :=
  match m with
  | [] => [(k, v)]
  | (k', v') :: rest =>
    if k' = k then (k, v) :: rest else (k', v') :: mapSet rest k v

/-- JavaScript `Set.add`: append if absent, no-op if present. -/
def setAdd (s : List String) (x : String) : List String :=
  if s.contains x then s else s ++ [x]

/-- The method `PriorityQueue.enqueue` from the source: insert the new element before
the first element whose stored priority is strictly smaller, appending at
the end when no such element exists. -/
def pqEnqueue (items : List (URLInfo × Int)) (u : URLInfo) (p : Int) :
    List (URLInfo × Int) :=
  match items with
  | [] => [(u, p)]
  | x :: xs => if p > x.2 then (u, p) :: x :: xs else x :: pqEnqueue xs u p

/-- The `URLFrontier` state: the five priority tiers (`frontQueues`, index 0-4),
the per-host holding queues in host insertion order (`backQueues`), the
per-host last dispatch times (`lastAccessTime`), and the configured
politeness delay. -/
structure URLFrontier where
  frontQueues : List (List (URLInfo × Int))
  backQueues : List (String × List URLInfo)
  lastAccessTime : List (String × Nat)
  politenessDelay : Nat
deriving DecidableEq

/-- The `URLFrontier` constructor: five empty priority tiers, no host
queues, no dispatch times. -/
def initFrontier (d : Nat) : URLFrontier :=
  { frontQueues := [[], [], [], [], []]
    backQueues := []
    lastAccessTime := []
    politenessDelay := d }

/-- The method `URLFrontier.addURL`: pick the tier keyed by the URL's priority; when
that key is absent from the tier map (priority outside 0-4) fall back to
tier 0, exactly like `frontQueues.get(priority) || frontQueues.get(0)`. -/
def URLFrontier.addURL (f : URLFrontier) (u : URLInfo) : URLFrontier :=
  let idx : Nat := if 0 ≤ u.priority ∧ u.priority ≤ 4 then u.priority.toNat else 0
  { f with frontQueues := f.frontQueues.set idx (pqEnqueue (f.frontQueues.getD idx []) u u.priority) }

/-- Append a URL to its host's holding queue, creating the host entry at the
end of the map when absent (`backQueues.get(host).push(urlInfo)` after a
`backQueues.set(host, [])` on a missing key). -/
def pushBack (bqs : List (String × List URLInfo)) (h : String) (u : URLInfo) :
    List (String × List URLInfo) :=
  match bqs with
  | [] => [(h, [u])]
  | (k, q) :: rest =>
    if k = h then (k, q ++ [u]) :: rest else (k, q) :: pushBack rest h u

/-- The politeness test of `getFromBackQueue`:
`now - (lastAccessTime.get(host) || 0) >= politenessDelay`, with the
subtraction performed over the integers as in JavaScript. -/
def codeEligible (d now : Nat) (last : List (String × Nat)) (h : String) : Prop :=
  (d : Int) ≤ (now : Int) - (((lookupA last h).getD 0 : Nat) : Int)

instance (d now : Nat) (last : List (String × Nat)) (h : String) :
    Decidable (codeEligible d now last h) := by
  unfold codeEligible; infer_instance

/-- Scan of the host holding queues in insertion order: skip empty queues,
and at the first non-empty queue whose host passes the politeness test,
remove its front element, stamp the host's last access time with `now`, and
return the element together with the updated queues and times. -/
def getFromBackQueueAux (d now : Nat) (last : List (String × Nat)) :
    List (String × List URLInfo) →
      Option (URLInfo × List (String × List URLInfo) × List (String × Nat))
  | [] => none
  | (h, q) :: rest =>
    match q with
    | [] =>
      (getFromBackQueueAux d now last rest).map
        (fun r => (r.1, (h, ([] : List URLInfo)) :: r.2.1, r.2.2))
    | u :: qrest =>
      if codeEligible d now last h then
        some (u, (h, qrest) :: rest, mapSet last h now)
      else
        (getFromBackQueueAux d now last rest).map
          (fun r => (r.1, (h, q) :: r.2.1, r.2.2))

/-- The method `URLFrontier.getFromBackQueue`: dispatch from the first
politeness-eligible non-empty host queue, or return none leaving the
frontier unchanged. -/
def URLFrontier.getFromBackQueue (f : URLFrontier) (now : Nat) :
    Option URLInfo × URLFrontier :=
  match getFromBackQueueAux f.politenessDelay now f.lastAccessTime f.backQueues with
  | none => (none, f)
  | some (u, bqs, last) =>
    (some u, { f with backQueues := bqs, lastAccessTime := last })

/-- The descending priority order of the tier scan in `getNextURL`
(`for (let priority = 4; priority >= 0; priority--)`). -/
def priorityOrder : List Nat := [4, 3, 2, 1, 0]

/-- The tier scan of `getNextURL`: on the first non-empty tier, move its
front element onto that URL's host holding queue and fall through to the
back-queue scan; if every tier is empty, fall through directly. -/
def getNextURLAux (f : URLFrontier) (now : Nat) :
    List Nat → Option URLInfo × URLFrontier
  | [] => f.getFromBackQueue now
  | p :: ps =>
    match f.frontQueues.getD p [] with
    | [] => getNextURLAux f now ps
    | e :: rest =>
      URLFrontier.getFromBackQueue
        { f with frontQueues := f.frontQueues.set p rest
                 backQueues := pushBack f.backQueues e.1.host e.1 }
        now

/-- The method `URLFrontier.getNextURL`: promote at most one URL out of the highest
non-empty priority tier, then dispatch from the back queues. -/
def URLFrontier.getNextURL (f : URLFrontier) (now : Nat) :
    Option URLInfo × URLFrontier :=
  getNextURLAux f now priorityOrder

/-- The method `URLFrontier.isEmpty`: true iff every priority tier and every host
holding queue is empty. -/
def URLFrontier.isEmpty (f : URLFrontier) : Bool :=
  f.frontQueues.all (fun t => t.isEmpty) &&
    f.backQueues.all (fun e => e.2.isEmpty)

/-- The promotion phase of `getNextURL` on its own: the body of the tier
scan without the subsequent back-queue dispatch. -/
def promoteScan (ps : List Nat) (f : URLFrontier) : URLFrontier :=
  match ps with
  | [] => f
  | p :: ps' =>
    match f.frontQueues.getD p [] with
    | [] => promoteScan ps' f
    | e :: rest =>
      { f with frontQueues := f.frontQueues.set p rest
               backQueues := pushBack f.backQueues e.1.host e.1 }

/-- All URLs held anywhere in the host holding queues. -/
def backURLs (bqs : List (String × List URLInfo)) : List URLInfo :=
  (bqs.map (fun e => e.2)).flatten

/-- All URLs in the priority tiers. -/
def frontURLs (fq : List (List (URLInfo × Int))) : List URLInfo :=
  (fq.map (fun t => t.map (fun e => e.1))).flatten

/-- All URLs held anywhere in the frontier: priority tiers then holding
queues. -/
def URLFrontier.allURLs (f : URLFrontier) : List URLInfo :=
  frontURLs f.frontQueues ++ backURLs f.backQueues

/-- Every URL in a holding queue is keyed under its own host (promotion
pushes a URL onto `backQueues[u.host]`). -/
def HostsOk (bqs : List (String × List URLInfo)) : Prop :=
  ∀ e ∈ bqs, ∀ v ∈ e.2, v.host = e.1

/-- The politeness condition as the specification words it: the host's
last dispatch time is absent, or lies at least `politenessDelay`
milliseconds in the past. -/
def specEligible (d now : Nat) (last : List (String × Nat)) (h : String) : Prop :=
  lookupA last h = none ∨
    ∃ t, lookupA last h = some t ∧ (d : Int) ≤ (now : Int) - (t : Int)

/-- The `URLStorage` class: the set of visited URL strings. -/
structure URLStorage where
  visitedUrls : List String
deriving DecidableEq

/-- The method `URLStorage.isURLSeen`. -/
def URLStorage.isURLSeen (s : URLStorage) (url : String) : Bool :=
  s.visitedUrls.contains url

/-- The method `URLStorage.markAsVisited` (`Set.add`). -/
def URLStorage.markAsVisited (s : URLStorage) (url : String) : URLStorage :=
  { visitedUrls := setAdd s.visitedUrls url }

/-- The `ContentStorage` class: crawl results keyed by URL (a `Map` in insertion
order) plus the set of seen content hashes. -/
structure ContentStorage where
  storage : List (String × CrawlResult)
  seenHashes : List String
deriving DecidableEq

/-- The method `ContentStorage.isContentSeen`. -/
def ContentStorage.isContentSeen (s : ContentStorage) (h : String) : Bool :=
  s.seenHashes.contains h

/-- The method `ContentStorage.store`: `storage.set(result.url, result)` then
`seenHashes.add(result.hash)`. -/
def ContentStorage.store (s : ContentStorage) (r : CrawlResult) : ContentStorage :=
  { storage := mapSet s.storage r.url r
    seenHashes := setAdd s.seenHashes r.hash }

/-- The method `ContentStorage.getAllResults`: the stored records in insertion order. -/
def ContentStorage.getAllResults (s : ContentStorage) : List CrawlResult :=
  s.storage.map (fun e => e.2)

/-- The empty `ContentStorage`. -/
def emptyCS : ContentStorage := { storage := [], seenHashes := [] }

/-- A successful fetch, as the downloader returns it before link
extraction: body, HTTP status, content type. -/
structure FetchedPage where
  content : String
  statusCode : Nat
  contentType : String
deriving DecidableEq

/-- Crawl configuration together with the external collaborators of the
orchestration loop: the downloader (`fetch`, `none` standing for any of its
failure modes), the link extractor (`parseLinks`), the content hash
(`hashFn`, SHA-256 in the source), the URL filter (`isValidURL`) and host
extraction (`hostOf`, `new URL(link).hostname`). -/
structure CrawlEnv where
  maxPages : Nat
  maxDepth : Nat
  fetch : String → Option FetchedPage
  parseLinks : String → String → List String
  hashFn : String → String
  isValidURL : String → Bool
  hostOf : String → String

/-- Mutable state of `WebCrawler` during `crawl`. -/
structure CrawlerState where
  frontier : URLFrontier
  contentStorage : ContentStorage
  urlStorage : URLStorage
  crawledCount : Nat
deriving DecidableEq

/-- How one loop iteration of `WebCrawler.crawl` ended for its dispatched
URL: silently discarded (already visited or over the depth limit), fetch
failed (caught exception), duplicate content, or stored. -/
inductive StepOutcome
  | discarded
  | fetchFailed
  | duplicateContent
  | stored
deriving DecidableEq

/-- The `URLInfo` built for an extracted link: priority
`Math.max(0, parent.priority - 1)`, depth `parent.depth + 1`. -/
def childInfo (env : CrawlEnv) (u : URLInfo) (now : Nat) (link : String) : URLInfo :=
  { url := link
    priority := max 0 (u.priority - 1)
    depth := u.depth + 1
    host := env.hostOf link
    timestamp := now }

/-- One turn of the re-enqueue loop over extracted links: if the link
passes the URL filter and is not yet visited, build its `URLInfo` and add
it to the frontier; otherwise leave the state alone. -/
def linkStep (env : CrawlEnv) (u : URLInfo) (now : Nat) (acc : CrawlerState)
    (link : String) : CrawlerState :=
  if env.isValidURL link && !acc.urlStorage.isURLSeen link then
    { acc with frontier := acc.frontier.addURL (childInfo env u now link) }
  else acc

/-- The body of one `WebCrawler.crawl` iteration after `getNextURL`
returned `u`: the visited/depth discard, the guarded fetch with its catch
branch marking the URL visited, the duplicate-content branch, and on new
content the store, visited-mark, counter increment and the re-enqueue loop
over extracted links. -/
def processURL (env : CrawlEnv) (st : CrawlerState) (u : URLInfo) (now : Nat) :
    CrawlerState × StepOutcome :=
  if st.urlStorage.isURLSeen u.url || decide (env.maxDepth < u.depth) then
    (st, .discarded)
  else
    match env.fetch u.url with
    | none => ({ st with urlStorage := st.urlStorage.markAsVisited u.url }, .fetchFailed)
    | some pg =>
      let h := env.hashFn pg.content
      if st.contentStorage.isContentSeen h then
        ({ st with urlStorage := st.urlStorage.markAsVisited u.url }, .duplicateContent)
      else
        let links := env.parseLinks pg.content u.url
        let result : CrawlResult :=
          { url := u.url, content := pg.content, links := links
            statusCode := pg.statusCode, contentType := pg.contentType, hash := h }
        let st' : CrawlerState :=
          { st with contentStorage := st.contentStorage.store result
                    urlStorage := st.urlStorage.markAsVisited u.url
                    crawledCount := st.crawledCount + 1 }
        (links.foldl (linkStep env u now) st', .stored)

/-- One dispatch observed during a run of the crawl loop: the dispatched
`URLInfo`, the time, whether the URL was already in the visited set at
dispatch time, and how the iteration ended. -/
structure DispatchEvent where
  info : URLInfo
  time : Nat
  visitedAtDispatch : Bool
  outcome : StepOutcome
deriving DecidableEq

/-- The main loop of `WebCrawler.crawl`, with explicit fuel and one clock
value per iteration; alongside the final state it returns the list of
dispatch events in order. An iteration whose `getNextURL` returns none
models the 100 ms politeness back-off and dispatches nothing. -/
def crawlLoop (env : CrawlEnv) : Nat → List Nat → CrawlerState →
    CrawlerState × List DispatchEvent
  | 0, _, st => (st, [])
  | Nat.succ fuel, times, st =>
    if st.frontier.isEmpty = false ∧ st.crawledCount < env.maxPages then
      let now := times.headD 0
      match st.frontier.getNextURL now with
      | (none, f') => crawlLoop env fuel times.tail { st with frontier := f' }
      | (some u, f') =>
        let seen := st.urlStorage.isURLSeen u.url
        let step := processURL env { st with frontier := f' } u now
        let rest := crawlLoop env fuel times.tail step.1
        (rest.1, { info := u, time := now, visitedAtDispatch := seen,
                   outcome := step.2 } :: rest.2)
    else (st, [])

/-- Seed insertion at the top of `WebCrawler.crawl`: every seed passing the
URL filter is enqueued with priority 4 and depth 0. -/
def addSeeds (env : CrawlEnv) (st : CrawlerState) (now : Nat)
    (seeds : List String) : CrawlerState :=
  seeds.foldl
    (fun acc url =>
      if env.isValidURL url then
        { acc with frontier := acc.frontier.addURL ⟨url, 4, 0, env.hostOf url, now⟩ }
      else acc) st

/-- The fresh `WebCrawler` state with politeness delay `d`. -/
def initState (d : Nat) : CrawlerState :=
  { frontier := initFrontier d
    contentStorage := emptyCS
    urlStorage := { visitedUrls := [] }
    crawledCount := 0 }

/-- A whole `WebCrawler.crawl` run: seed the frontier, then run the loop. -/
def crawlRun (env : CrawlEnv) (d fuel : Nat) (times : List Nat)
    (seeds : List String) : CrawlerState × List DispatchEvent :=
  crawlLoop env fuel times (addSeeds env (initState d) 0 seeds)

/-- An operation applied to the frontier from outside: an `addURL` call or
a `getNextURL` call at a given clock value. -/
inductive FOp
  | add (u : URLInfo)
  | next (t : Nat)
deriving DecidableEq

/-- Run a sequence of frontier operations, logging each dispatched URL with
its dispatch time. -/
def runFrontier (f : URLFrontier) (log : List (URLInfo × Nat)) :
    List FOp → URLFrontier × List (URLInfo × Nat)
  | [] => (f, log)
  | FOp.add u :: ops => runFrontier (f.addURL u) log ops
  | FOp.next t :: ops =>
    match f.getNextURL t with
    | (some u, f') => runFrontier f' (log ++ [(u, t)]) ops
    | (none, f') => runFrontier f' log ops

/-- The dispatch times recorded for host `h`, in dispatch order. -/
def lastTimes (h : String) (log : List (URLInfo × Nat)) : List Nat :=
  (log.filter (fun e => e.1.host == h)).map (fun e => e.2)

/-- The concrete collaborator environment used by the witnesses and
counterexamples: a three-page site where page `A` links to `B` and `C`,
page `B` links to `C`, all bodies distinct, every URL passing the filter,
and every URL being its own host. -/
def exEnv : CrawlEnv :=
  { maxPages := 10, maxDepth := 5
    fetch := fun u =>
      if u = "A" then some ⟨"ca", 200, "text/html"⟩
      else if u = "B" then some ⟨"cb", 200, "text/html"⟩
      else if u = "C" then some ⟨"cc", 200, "text/html"⟩
      else none
    parseLinks := fun content _ =>
      if content = "ca" then ["B", "C"]
      else if content = "cb" then ["C"]
      else []
    hashFn := fun c => c
    isValidURL := fun _ => true
    hostOf := fun u => u }

/-- The same environment with `maxDepth = 0`: only seeds are within the
depth limit. -/
def exEnvDepth0 : CrawlEnv := { exEnv with maxDepth := 0 }

/-- What `addURL` does, as a predicate: the URL goes to the tier matching
its priority when that lies in [0,4] and to tier 0 otherwise; within the
target tier it is placed after every entry of stored priority at least its
own and before the first entry of strictly smaller priority; every other
tier and the rest of the frontier are untouched. -/
def AddURLSpec (f : URLFrontier) (u : URLInfo) : Prop :=
  ∃ l₁ l₂,
      f.frontQueues.getD (if 0 ≤ u.priority ∧ u.priority ≤ 4 then u.priority.toNat else 0) []
        = l₁ ++ l₂ ∧
      (f.addURL u).frontQueues.getD
          (if 0 ≤ u.priority ∧ u.priority ≤ 4 then u.priority.toNat else 0) []
        = l₁ ++ (u, u.priority) :: l₂ ∧
      (∀ x ∈ l₁, u.priority ≤ x.2) ∧
      (∀ y, l₂.head? = some y → y.2 < u.priority) ∧
      (∀ j, j ≠ (if 0 ≤ u.priority ∧ u.priority ≤ 4 then u.priority.toNat else 0) →
        (f.addURL u).frontQueues.getD j [] = f.frontQueues.getD j []) ∧
      (f.addURL u).backQueues = f.backQueues ∧
      (f.addURL u).lastAccessTime = f.lastAccessTime

/-- The promotion phase as the claim words it: either every tier (0-4) is
empty and nothing changes, or exactly one URL — the front element of the
highest-priority non-empty tier — is removed from its tier and appended to
its host's holding queue. -/
def PromoteSpec (f f₁ : URLFrontier) : Prop :=
  ((∀ p, p ≤ 4 → f.frontQueues.getD p [] = []) ∧ f₁ = f) ∨
  (∃ p e rest, p ≤ 4 ∧
    (∀ q, p < q → q ≤ 4 → f.frontQueues.getD q [] = []) ∧
    f.frontQueues.getD p [] = e :: rest ∧
    f₁ = { f with frontQueues := f.frontQueues.set p rest,
                  backQueues := pushBack f.backQueues e.1.host e.1 })

/-- C1 formalized: one `getNextURL` call decomposes into the promotion
phase followed by the back-queue dispatch; the promotion phase promotes at
most one URL, taken from the front of the highest-priority non-empty tier
and appended to its host's holding queue; on a none result nothing is lost
(the URLs held by the frontier are a permutation of what they were) and
every holding queue is empty or its host fails the politeness condition;
on a some result the returned URL is removed — exactly once — from the
front of the first holding queue (in host insertion order) whose earlier
queues are all empty or ineligible and whose own host is eligible
(`lastDispatchTime` absent or at least `politenessDelay` in the past), and
that host's `lastDispatchTime` is set to `now`. -/
def DispatchSpec (f : URLFrontier) (now : Nat) : Prop :=
  f.getNextURL now = (promoteScan priorityOrder f).getFromBackQueue now ∧
  PromoteSpec f (promoteScan priorityOrder f) ∧
  (∀ f', f.getNextURL now = (none, f') →
    f' = promoteScan priorityOrder f ∧
    (f'.allURLs).Perm f.allURLs ∧
    ∀ e ∈ f'.backQueues, e.2 = [] ∨
      ¬ specEligible f.politenessDelay now f'.lastAccessTime e.1) ∧
  (∀ u f', f.getNextURL now = (some u, f') →
    (f.allURLs).Perm (u :: f'.allURLs) ∧
    f'.frontQueues = (promoteScan priorityOrder f).frontQueues ∧
    f'.politenessDelay = f.politenessDelay ∧
    ∃ hst pre rest post,
      (promoteScan priorityOrder f).backQueues = pre ++ (hst, u :: rest) :: post ∧
      f'.backQueues = pre ++ (hst, rest) :: post ∧
      f'.lastAccessTime = mapSet f.lastAccessTime hst now ∧
      specEligible f.politenessDelay now f.lastAccessTime hst ∧
      ∀ e ∈ pre, e.2 = [] ∨ ¬ specEligible f.politenessDelay now f.lastAccessTime e.1)

/-- Statement that `lastAccessTime` records, for every host, exactly the time of the last
dispatch to that host in the log (absent iff the host was never
dispatched). -/
def LastOk (last : List (String × Nat)) (log : List (URLInfo × Nat)) : Prop :=
  ∀ h, lookupA last h = (lastTimes h log).getLast?

/-- Consecutive dispatches to any one host are at least `d` apart. -/
def PoliteLog (d : Nat) (log : List (URLInfo × Nat)) : Prop :=
  ∀ h, List.Chain' (fun a b : Nat => (d : Int) ≤ (b : Int) - (a : Int)) (lastTimes h log)

/-- Keys of the result map are unique and each stored record's `url` field
is its own key. -/
def StoreKeysInv (s : ContentStorage) : Prop :=
  ((s.storage.map (fun e => e.1)).Nodup) ∧ (∀ e ∈ s.storage, e.2.url = e.1)

/-- Invariant of `ContentStorage` maintained by the crawl loop: unique
keys, records keyed by their own `url`, every stored record's hash already
recorded in `seenHashes`, and pairwise-distinct hashes among the stored
records. -/
def ContentStorage.Inv (s : ContentStorage) : Prop :=
  StoreKeysInv s ∧
  (∀ e ∈ s.storage, e.2.hash ∈ s.seenHashes) ∧
  ((s.storage.map (fun e => e.2.hash)).Nodup)

/-- The seed `URLInfo` for page `A` in the witness environment. -/
def uA : URLInfo := ⟨"A", 4, 0, "A", 0⟩

/-- The page the witness environment serves at `A`. -/
def pgA : FetchedPage := ⟨"ca", 200, "text/html"⟩

/-- A URL the witness environment fails to fetch. -/
def uD : URLInfo := ⟨"D", 2, 0, "D", 0⟩

/-- The `URLInfo` of link `B` discovered at depth 1. -/
def uB1 : URLInfo := ⟨"B", 3, 1, "B", 0⟩

/-- A crawler state that has already stored as many pages as `exEnv`
allows. -/
def exBudgetState : CrawlerState := { initState 0 with crawledCount := 10 }

/-- A crawler state that has already seen the fingerprint of page `A`'s
body. -/
def dupState : CrawlerState :=
  { initState 0 with contentStorage := { storage := [], seenHashes := ["ca"] } }

/-- A crawler state in which `A` is already visited. -/
def seenState : CrawlerState :=
  { initState 0 with urlStorage := { visitedUrls := ["A"] } }

/-- A one-URL frontier with politeness delay 1, used to witness C1. -/
def wFrontier : URLFrontier := (initFrontier 1).addURL uA

/-- What one loop iteration guarantees about the visited set: it stays
duplicate-free; the dispatched URL is in it afterwards whenever the
iteration was not a silent discard; an already-visited URL stays in it;
and a not-yet-visited URL over the depth limit is silently discarded with
the whole state unchanged (so never added). -/
def VisitedMarkSpec (env : CrawlEnv) (st : CrawlerState) (u : URLInfo)
    (now : Nat) : Prop :=
  ((processURL env st u now).1.urlStorage.visitedUrls.Nodup) ∧
  ((processURL env st u now).2 ≠ .discarded →
    (processURL env st u now).1.urlStorage.isURLSeen u.url = true) ∧
  (st.urlStorage.isURLSeen u.url = true →
    (processURL env st u now).1.urlStorage.isURLSeen u.url = true) ∧
  (st.urlStorage.isURLSeen u.url = false → env.maxDepth < u.depth →
    processURL env st u now = (st, .discarded))

/-! ## Basic lemmas about the embedded JavaScript collections -/

theorem lookupA_mapSet_self {α : Type} (m : List (String × α)) (k : String) (v : α) :
    lookupA (mapSet m k v) k = some v := by
  induction m with
  | nil => simp [mapSet, lookupA]
  | cons e rest ih =>
    by_cases h : e.1 = k
    · simp [mapSet, h, lookupA]
    · simp [mapSet, h, lookupA, ih]

theorem lookupA_mapSet_other {α : Type} (m : List (String × α)) (k k' : String)
    (v : α) (h : k' ≠ k) : lookupA (mapSet m k v) k' = lookupA m k' := by
  induction m with
  | nil => simp [mapSet, lookupA, Ne.symm h]
  | cons e rest ih =>
    by_cases he : e.1 = k
    · subst he
      simp [mapSet, lookupA, Ne.symm h]
    · simp only [mapSet, he, if_false, lookupA]
      by_cases he' : e.1 = k'
      · simp [he']
      · simp [he', ih]

theorem setAdd_mem (s : List String) (x y : String) (h : y ∈ s) :
    y ∈ setAdd s x := by
  unfold setAdd
  by_cases hc : x ∈ s <;> simp [hc, h]

theorem mem_setAdd_self (s : List String) (x : String) : x ∈ setAdd s x := by
  unfold setAdd
  by_cases hc : x ∈ s <;> simp [hc]

theorem setAdd_nodup (s : List String) (x : String) (h : s.Nodup) :
    (setAdd s x).Nodup := by
  unfold setAdd
  by_cases hc : x ∈ s
  · simpa [hc] using h
  · simp [hc, List.nodup_append, h]

theorem mem_setAdd (s : List String) (x y : String) (h : y ∈ setAdd s x) :
    y ∈ s ∨ y = x := by
  unfold setAdd at h
  by_cases hc : x ∈ s
  · simp [hc] at h
    exact Or.inl h
  · simp [hc] at h
    exact h

/-! ## The sorted-insertion queue (`PriorityQueue.enqueue`) -/

/-- Splitting lemma: `pqEnqueue` splits the queue at the first element of strictly smaller
stored priority and puts the new entry there: everything before it has
priority at least `p` (so equal-priority entries keep first-enqueued-first-
out order), and the first element after it, when present, has priority
strictly below `p`. -/
theorem pqEnqueue_spec (items : List (URLInfo × Int)) (u : URLInfo) (p : Int) :
    ∃ l₁ l₂, items = l₁ ++ l₂ ∧
      pqEnqueue items u p = l₁ ++ (u, p) :: l₂ ∧
      (∀ x ∈ l₁, p ≤ x.2) ∧
      (∀ y, l₂.head? = some y → y.2 < p) := by
  induction items with
  | nil =>
    exact ⟨[], [], by simp, by simp [pqEnqueue], by simp, by simp⟩
  | cons x xs ih =>
    by_cases h : p > x.2
    · refine ⟨[], x :: xs, by simp, ?_, by simp, ?_⟩
      · simp [pqEnqueue, h]
      · intro y hy
        simp at hy
        subst hy
        exact h
    · obtain ⟨l₁, l₂, hsplit, heq, hall, hhead⟩ := ih
      refine ⟨x :: l₁, l₂, by simp [hsplit], ?_, ?_, hhead⟩
      · simp [pqEnqueue, h, heq]
      · intro z hz
        rcases List.mem_cons.mp hz with hz | hz
        · subst hz
          exact le_of_not_lt h
        · exact hall z hz

/-- Helper: reading back the tier just written by `addURL`. -/
theorem getD_set_self {α : Type} (l : List (List α)) (i : Nat) (h : i < l.length)
    (a : List α) : (l.set i a).getD i [] = a := by
  rw [List.getD_eq_getElem?_getD]
  rw [List.getElem?_set_self (by simpa using h)]
  rfl

/-- Helper: tiers other than the one written by `addURL` are unchanged. -/
theorem getD_set_other {α : Type} (l : List (List α)) (i j : Nat) (h : j ≠ i)
    (a : List α) : (l.set i a).getD j [] = l.getD j [] := by
  rw [List.getD_eq_getElem?_getD, List.getElem?_set_ne (fun hh => h hh.symm),
    List.getD_eq_getElem?_getD]

/-- C3 (counterexample): a PendingURL with priority 5 — above the 0-4
range — is NOT clamped into tier 4 as the claim states: tier 4 stays
empty and the URL lands in tier 0 (the `|| frontQueues.get(0)` fallback). -/
theorem addURL_priority_above_four_lands_in_tier_zero :
    ((initFrontier 0).addURL ⟨"http://x/", 5, 0, "x", 0⟩).frontQueues.getD 4 [] = [] ∧
    ((initFrontier 0).addURL ⟨"http://x/", 5, 0, "x", 0⟩).frontQueues.getD 0 []
      = [(⟨"http://x/", 5, 0, "x", 0⟩, 5)] :=
  ⟨rfl, rfl⟩

/-- C3 (amended): `addURL` inserts the URL into the tier matching its
priority when the priority lies in [0,4] and into tier 0 otherwise (above 4
as well as below 0); within the target tier the entry is placed after every
entry of stored priority at least its own and before the first entry of
strictly smaller priority — so equal-priority entries keep stable
first-enqueued-first-out order — all other tiers and the rest of the
frontier are untouched, and the operation is total. -/
theorem addURL_insertion_spec (f : URLFrontier) (u : URLInfo)
    (hlen : f.frontQueues.length = 5) : AddURLSpec f u := by
  unfold AddURLSpec
  set idx : Nat := if 0 ≤ u.priority ∧ u.priority ≤ 4 then u.priority.toNat else 0 with hidx
  have hlt : idx < f.frontQueues.length := by
    rw [hlen, hidx]
    by_cases h : 0 ≤ u.priority ∧ u.priority ≤ 4
    · rw [if_pos h]
      omega
    · simp [h]
  obtain ⟨l₁, l₂, hsplit, heq, hall, hhead⟩ :=
    pqEnqueue_spec (f.frontQueues.getD idx []) u u.priority
  refine ⟨l₁, l₂, hsplit, ?_, hall, hhead, ?_, rfl, rfl⟩
  · show (f.frontQueues.set idx (pqEnqueue (f.frontQueues.getD idx []) u u.priority)).getD idx []
      = l₁ ++ (u, u.priority) :: l₂
    rw [getD_set_self _ _ hlt, heq]
  · intro j hj
    show (f.frontQueues.set idx (pqEnqueue (f.frontQueues.getD idx []) u u.priority)).getD j []
      = f.frontQueues.getD j []
    exact getD_set_other _ _ _ hj _

/-! ## Frontier analysis: the back-queue scan -/

theorem getFromBackQueueAux_none_spec (d now : Nat) (last : List (String × Nat)) :
    ∀ bqs, getFromBackQueueAux d now last bqs = none →
      ∀ e ∈ bqs, e.2 = [] ∨ ¬ codeEligible d now last e.1 := by
  intro bqs
  induction bqs with
  | nil => intro _ e he; cases he
  | cons hd tl ih =>
    obtain ⟨h₀, q⟩ := hd
    intro h e he
    cases q with
    | nil =>
      simp only [getFromBackQueueAux] at h
      have hrec : getFromBackQueueAux d now last tl = none := by
        cases hr : getFromBackQueueAux d now last tl with
        | none => rfl
        | some r => rw [hr] at h; simp at h
      rcases List.mem_cons.mp he with rfl | he'
      · exact Or.inl rfl
      · exact ih hrec e he'
    | cons u qrest =>
      simp only [getFromBackQueueAux] at h
      by_cases hel : codeEligible d now last h₀
      · rw [if_pos hel] at h
        exact absurd h (by simp)
      · rw [if_neg hel] at h
        have hrec : getFromBackQueueAux d now last tl = none := by
          cases hr : getFromBackQueueAux d now last tl with
          | none => rfl
          | some r => rw [hr] at h; simp at h
        rcases List.mem_cons.mp he with rfl | he'
        · exact Or.inr hel
        · exact ih hrec e he'

theorem getFromBackQueueAux_some_spec (d now : Nat) (last : List (String × Nat)) :
    ∀ bqs u bqs' last',
      getFromBackQueueAux d now last bqs = some (u, bqs', last') →
      ∃ hst pre rest post,
        bqs = pre ++ (hst, u :: rest) :: post ∧
        bqs' = pre ++ (hst, rest) :: post ∧
        last' = mapSet last hst now ∧
        codeEligible d now last hst ∧
        ∀ e ∈ pre, e.2 = [] ∨ ¬ codeEligible d now last e.1 := by
  intro bqs
  induction bqs with
  | nil => intro u bqs' last' h; simp [getFromBackQueueAux] at h
  | cons hd tl ih =>
    obtain ⟨h₀, q⟩ := hd
    intro u bqs' last' h
    cases q with
    | nil =>
      simp only [getFromBackQueueAux] at h
      cases hr : getFromBackQueueAux d now last tl with
      | none => rw [hr] at h; simp at h
      | some r =>
        obtain ⟨u₀, b₀, l₀⟩ := r
        rw [hr] at h
        simp only [Option.map_some', Option.some.injEq, Prod.mk.injEq] at h
        obtain ⟨rfl, rfl, rfl⟩ := h
        obtain ⟨hst, pre, rest, post, hbq, hbq', hlast, hel, hpre⟩ := ih u₀ b₀ l₀ hr
        refine ⟨hst, (h₀, []) :: pre, rest, post, by simp [hbq], by simp [hbq'],
          hlast, hel, ?_⟩
        intro e he
        rcases List.mem_cons.mp he with rfl | he'
        · exact Or.inl rfl
        · exact hpre e he'
    | cons u₀ qrest =>
      simp only [getFromBackQueueAux] at h
      by_cases hel : codeEligible d now last h₀
      · rw [if_pos hel] at h
        simp only [Option.some.injEq, Prod.mk.injEq] at h
        obtain ⟨rfl, rfl, rfl⟩ := h
        exact ⟨h₀, [], qrest, tl, by simp, by simp, rfl, hel, by simp⟩
      · rw [if_neg hel] at h
        cases hr : getFromBackQueueAux d now last tl with
        | none => rw [hr] at h; simp at h
        | some r =>
          obtain ⟨u₁, b₁, l₁⟩ := r
          rw [hr] at h
          simp only [Option.map_some', Option.some.injEq, Prod.mk.injEq] at h
          obtain ⟨rfl, rfl, rfl⟩ := h
          obtain ⟨hst, pre, rest, post, hbq, hbq', hlast, hel', hpre⟩ := ih u₁ b₁ l₁ hr
          refine ⟨hst, (h₀, u₀ :: qrest) :: pre, rest, post, by simp [hbq],
            by simp [hbq'], hlast, hel', ?_⟩
          intro e he
          rcases List.mem_cons.mp he with rfl | he'
          · exact Or.inr hel
          · exact hpre e he'

/-! ## Frontier analysis: promotion and conservation -/

theorem backURLs_append (l₁ l₂ : List (String × List URLInfo)) :
    backURLs (l₁ ++ l₂) = backURLs l₁ ++ backURLs l₂ := by
  simp [backURLs]

theorem pushBack_perm (bqs : List (String × List URLInfo)) (h : String)
    (u : URLInfo) : (backURLs (pushBack bqs h u)).Perm (backURLs bqs ++ [u]) := by
  induction bqs with
  | nil => simp [pushBack, backURLs]
  | cons hd tl ih =>
    obtain ⟨k, q⟩ := hd
    by_cases hk : k = h
    · subst hk
      simp only [pushBack, if_pos rfl]
      have h1 : (q ++ ([u] ++ backURLs tl)).Perm (q ++ (backURLs tl ++ [u])) :=
        List.Perm.append_left _ List.perm_append_comm
      show (backURLs ((k, q ++ [u]) :: tl)).Perm (backURLs ((k, q) :: tl) ++ [u])
      simp only [backURLs, List.map_cons, List.flatten_cons]
      simpa using h1
    · simp only [pushBack, if_neg hk]
      show (backURLs ((k, q) :: pushBack tl h u)).Perm (backURLs ((k, q) :: tl) ++ [u])
      simp only [backURLs, List.map_cons, List.flatten_cons]
      have h1 : (q ++ backURLs (pushBack tl h u)).Perm (q ++ (backURLs tl ++ [u])) :=
        List.Perm.append_left _ ih
      simpa [backURLs] using h1

theorem frontURLs_cons (t : List (URLInfo × Int)) (ts : List (List (URLInfo × Int))) :
    frontURLs (t :: ts) = t.map (fun x => x.1) ++ frontURLs ts := by
  simp [frontURLs]

theorem frontURLs_set_perm (l : List (List (URLInfo × Int))) (p : Nat)
    (e : URLInfo × Int) (rest : List (URLInfo × Int))
    (h : l.getD p [] = e :: rest) :
    (frontURLs l).Perm (e.1 :: frontURLs (l.set p rest)) := by
  induction l generalizing p with
  | nil => simp [List.getD] at h
  | cons t ts ih =>
    cases p with
    | zero =>
      have ht : t = e :: rest := h
      subst ht
      show (frontURLs ((e :: rest) :: ts)).Perm (e.1 :: frontURLs (rest :: ts))
      rw [frontURLs_cons, frontURLs_cons]
      simp only [List.map_cons, List.cons_append]
      exact List.Perm.refl _
    | succ p' =>
      have h' : ts.getD p' [] = e :: rest := h
      have hperm := ih (p := p') h'
      show (frontURLs (t :: ts)).Perm (e.1 :: frontURLs (t :: ts.set p' rest))
      rw [frontURLs_cons, frontURLs_cons]
      exact (List.Perm.append_left _ hperm).trans List.perm_middle

theorem promoteScan_lastAccessTime (ps : List Nat) (f : URLFrontier) :
    (promoteScan ps f).lastAccessTime = f.lastAccessTime := by
  induction ps with
  | nil => rfl
  | cons p ps' ih =>
    cases h : f.frontQueues.getD p [] with
    | nil => simpa only [promoteScan, h] using ih
    | cons e rest => simp only [promoteScan, h]

theorem promoteScan_politenessDelay (ps : List Nat) (f : URLFrontier) :
    (promoteScan ps f).politenessDelay = f.politenessDelay := by
  induction ps with
  | nil => rfl
  | cons p ps' ih =>
    cases h : f.frontQueues.getD p [] with
    | nil => simpa only [promoteScan, h] using ih
    | cons e rest => simp only [promoteScan, h]

theorem pushBack_hostsOk (bqs : List (String × List URLInfo)) (u : URLInfo)
    (hok : HostsOk bqs) : HostsOk (pushBack bqs u.host u) := by
  induction bqs with
  | nil =>
    intro e he v hv
    simp [pushBack] at he
    subst he
    simp at hv
    subst hv
    rfl
  | cons hd tl ih =>
    obtain ⟨k, q⟩ := hd
    by_cases hk : k = u.host
    · subst hk
      intro e he v hv
      simp only [pushBack, if_pos rfl] at he
      rcases List.mem_cons.mp he with rfl | he'
      · rcases List.mem_append.mp hv with hvq | hvu
        · exact hok (u.host, q) (List.mem_cons_self _ _) v hvq
        · simp at hvu
          subst hvu
          rfl
      · exact hok e (List.mem_cons_of_mem _ he') v hv
    · intro e he v hv
      simp only [pushBack, if_neg hk] at he
      rcases List.mem_cons.mp he with rfl | he'
      · exact hok (k, q) (List.mem_cons_self _ _) v hv
      · exact ih (fun e' he' v' hv' => hok e' (List.mem_cons_of_mem _ he') v' hv') e he' v hv

theorem promoteScan_hostsOk (ps : List Nat) (f : URLFrontier)
    (hok : HostsOk f.backQueues) : HostsOk (promoteScan ps f).backQueues := by
  induction ps with
  | nil => exact hok
  | cons p ps' ih =>
    cases h : f.frontQueues.getD p [] with
    | nil => simpa only [promoteScan, h] using ih
    | cons e rest =>
      simpa only [promoteScan, h] using pushBack_hostsOk f.backQueues e.1 hok

theorem promoteScan_allURLs (ps : List Nat) (f : URLFrontier) :
    ((promoteScan ps f).allURLs).Perm f.allURLs := by
  induction ps with
  | nil => exact List.Perm.refl _
  | cons p ps' ih =>
    cases h : f.frontQueues.getD p [] with
    | nil => simpa only [promoteScan, h] using ih
    | cons e rest =>
      simp only [promoteScan, h]
      show (frontURLs (f.frontQueues.set p rest) ++
          backURLs (pushBack f.backQueues e.1.host e.1)).Perm
        (frontURLs f.frontQueues ++ backURLs f.backQueues)
      have h₁ := pushBack_perm f.backQueues e.1.host e.1
      have h₂ := frontURLs_set_perm f.frontQueues p e rest h
      have s1 : (frontURLs (f.frontQueues.set p rest) ++
          backURLs (pushBack f.backQueues e.1.host e.1)).Perm
          (frontURLs (f.frontQueues.set p rest) ++ (backURLs f.backQueues ++ [e.1])) :=
        List.Perm.append_left _ h₁
      have s2 : (frontURLs (f.frontQueues.set p rest) ++
          (backURLs f.backQueues ++ [e.1])).Perm
          (e.1 :: (frontURLs (f.frontQueues.set p rest) ++ backURLs f.backQueues)) := by
        have hs := List.perm_append_singleton e.1
          (frontURLs (f.frontQueues.set p rest) ++ backURLs f.backQueues)
        simpa using hs
      have s3 : (e.1 :: (frontURLs (f.frontQueues.set p rest) ++ backURLs f.backQueues)).Perm
          (frontURLs f.frontQueues ++ backURLs f.backQueues) := by
        have : (e.1 :: (frontURLs (f.frontQueues.set p rest) ++ backURLs f.backQueues))
            = (e.1 :: frontURLs (f.frontQueues.set p rest)) ++ backURLs f.backQueues := by
          simp
        rw [this]
        exact List.Perm.append_right _ h₂.symm
      exact (s1.trans s2).trans s3

theorem getNextURLAux_eq_promote (f : URLFrontier) (now : Nat) (ps : List Nat) :
    getNextURLAux f now ps = (promoteScan ps f).getFromBackQueue now := by
  induction ps with
  | nil => rfl
  | cons p ps' ih =>
    cases h : f.frontQueues.getD p [] with
    | nil => simpa only [getNextURLAux, promoteScan, h] using ih
    | cons e rest => simp only [getNextURLAux, promoteScan, h]

theorem promoteScan_spec (f : URLFrontier) :
    PromoteSpec f (promoteScan priorityOrder f) := by
  cases h4 : f.frontQueues.getD 4 [] with
  | cons e rest =>
    exact Or.inr ⟨4, e, rest, le_refl 4, by omega, h4,
      by simp only [priorityOrder, promoteScan, h4]⟩
  | nil =>
  cases h3 : f.frontQueues.getD 3 [] with
  | cons e rest =>
    refine Or.inr ⟨3, e, rest, by omega, ?_, h3,
      by simp only [priorityOrder, promoteScan, h4, h3]⟩
    intro q hq hq4
    interval_cases q
    exact h4
  | nil =>
  cases h2 : f.frontQueues.getD 2 [] with
  | cons e rest =>
    refine Or.inr ⟨2, e, rest, by omega, ?_, h2,
      by simp only [priorityOrder, promoteScan, h4, h3, h2]⟩
    intro q hq hq4
    interval_cases q
    · exact h3
    · exact h4
  | nil =>
  cases h1 : f.frontQueues.getD 1 [] with
  | cons e rest =>
    refine Or.inr ⟨1, e, rest, by omega, ?_, h1,
      by simp only [priorityOrder, promoteScan, h4, h3, h2, h1]⟩
    intro q hq hq4
    interval_cases q
    · exact h2
    · exact h3
    · exact h4
  | nil =>
  cases h0 : f.frontQueues.getD 0 [] with
  | cons e rest =>
    refine Or.inr ⟨0, e, rest, by omega, ?_, h0,
      by simp only [priorityOrder, promoteScan, h4, h3, h2, h1, h0]⟩
    intro q hq hq4
    interval_cases q
    · exact h1
    · exact h2
    · exact h3
    · exact h4
  | nil =>
    refine Or.inl ⟨?_, by simp only [priorityOrder, promoteScan, h4, h3, h2, h1, h0]⟩
    intro p hp
    interval_cases p
    · exact h0
    · exact h1
    · exact h2
    · exact h3
    · exact h4

theorem codeEligible_iff_specEligible (d now : Nat) (last : List (String × Nat))
    (h : String) (hd : d ≤ now) :
    codeEligible d now last h ↔ specEligible d now last h := by
  unfold codeEligible specEligible
  cases hl : lookupA last h with
  | none =>
    simp only [hl, Option.getD_none]
    constructor
    · intro _
      exact Or.inl trivial
    · intro _
      simp only [Nat.cast_zero, sub_zero]
      exact_mod_cast hd
  | some t =>
    simp only [hl, Option.getD_some]
    constructor
    · intro hc
      exact Or.inr ⟨t, rfl, hc⟩
    · rintro (hn | ⟨t', ht', hc⟩)
      · cases hn
      · injection ht' with ht'
        subst ht'
        exact hc

theorem backURLs_cons (e : String × List URLInfo) (l : List (String × List URLInfo)) :
    backURLs (e :: l) = e.2 ++ backURLs l := by
  simp [backURLs]

/-- C1: assuming the clock has at least reached `politenessDelay` (true of
every epoch-milliseconds clock value), one `getNextURL` call behaves
exactly as the claim describes; see `DispatchSpec`. -/
theorem getNextURL_satisfies_dispatch_spec (f : URLFrontier) (now : Nat)
    (hnow : f.politenessDelay ≤ now) : DispatchSpec f now := by
  have hdec := getNextURLAux_eq_promote f now priorityOrder
  set g := promoteScan priorityOrder f with hg
  have hlast : g.lastAccessTime = f.lastAccessTime := promoteScan_lastAccessTime _ _
  have hdelay : g.politenessDelay = f.politenessDelay := promoteScan_politenessDelay _ _
  have hperm : (g.allURLs).Perm f.allURLs := promoteScan_allURLs _ _
  refine ⟨hdec, promoteScan_spec f, ?_, ?_⟩
  · intro f' hnone
    have heq : g.getFromBackQueue now = (none, f') := by rw [← hdec]; exact hnone
    cases haux : getFromBackQueueAux g.politenessDelay now g.lastAccessTime g.backQueues with
    | none =>
      simp only [URLFrontier.getFromBackQueue, haux, Prod.mk.injEq, true_and] at heq
      subst heq
      refine ⟨rfl, hperm, ?_⟩
      intro e he
      rcases getFromBackQueueAux_none_spec _ _ _ _ haux e he with hq | hne
      · exact Or.inl hq
      · refine Or.inr ?_
        rw [hlast]
        rw [hdelay, hlast] at hne
        exact fun hs => hne ((codeEligible_iff_specEligible _ _ _ _ hnow).mpr hs)
    | some r =>
      obtain ⟨u₀, bqs', last'⟩ := r
      simp only [URLFrontier.getFromBackQueue, haux, Prod.mk.injEq] at heq
      exact absurd heq.1 (by simp)
  · intro u f' hsome
    have heq : g.getFromBackQueue now = (some u, f') := by rw [← hdec]; exact hsome
    cases haux : getFromBackQueueAux g.politenessDelay now g.lastAccessTime g.backQueues with
    | none =>
      simp only [URLFrontier.getFromBackQueue, haux, Prod.mk.injEq] at heq
      exact absurd heq.1 (by simp)
    | some r =>
      obtain ⟨u₀, bqs', last'⟩ := r
      simp only [URLFrontier.getFromBackQueue, haux, Prod.mk.injEq,
        Option.some.injEq] at heq
      obtain ⟨rfl, rfl⟩ := heq
      obtain ⟨hst, pre, rest, post, hbq, hbq', hlastm, hel, hpre⟩ :=
        getFromBackQueueAux_some_spec _ _ _ _ _ _ _ haux
      have key : (g.allURLs).Perm
          (u₀ :: (frontURLs g.frontQueues ++ backURLs bqs')) := by
        show (frontURLs g.frontQueues ++ backURLs g.backQueues).Perm
          (u₀ :: (frontURLs g.frontQueues ++ backURLs bqs'))
        rw [hbq, hbq', backURLs_append, backURLs_append, backURLs_cons, backURLs_cons]
        have h1 : frontURLs g.frontQueues ++
            (backURLs pre ++ ((u₀ :: rest) ++ backURLs post))
            = (frontURLs g.frontQueues ++ backURLs pre) ++
              (u₀ :: (rest ++ backURLs post)) := by simp
        have h2 : u₀ :: (frontURLs g.frontQueues ++
            (backURLs pre ++ (rest ++ backURLs post)))
            = u₀ :: ((frontURLs g.frontQueues ++ backURLs pre) ++
              (rest ++ backURLs post)) := by simp
        rw [h1, h2]
        exact List.perm_middle
      refine ⟨hperm.symm.trans key, rfl, hdelay, hst, pre, rest, post, hbq, hbq', ?_, ?_, ?_⟩
      · show last' = mapSet f.lastAccessTime hst now
        rw [hlastm, hlast]
      · rw [hdelay, hlast] at hel
        exact (codeEligible_iff_specEligible _ _ _ _ hnow).mp hel
      · intro e he
        rcases hpre e he with hq | hne
        · exact Or.inl hq
        · refine Or.inr ?_
          rw [hdelay, hlast] at hne
          exact fun hs => hne ((codeEligible_iff_specEligible _ _ _ _ hnow).mpr hs)

/-! ## C2: politeness across a whole run of frontier operations -/

theorem getNextURL_cases (f : URLFrontier) (now : Nat) :
    (∀ f', f.getNextURL now = (none, f') →
      f'.backQueues = (promoteScan priorityOrder f).backQueues ∧
      f'.lastAccessTime = f.lastAccessTime ∧
      f'.politenessDelay = f.politenessDelay) ∧
    (∀ u f', f.getNextURL now = (some u, f') →
      ∃ hst pre rest post,
        (promoteScan priorityOrder f).backQueues = pre ++ (hst, u :: rest) :: post ∧
        f'.backQueues = pre ++ (hst, rest) :: post ∧
        f'.lastAccessTime = mapSet f.lastAccessTime hst now ∧
        f'.politenessDelay = f.politenessDelay ∧
        codeEligible f.politenessDelay now f.lastAccessTime hst) := by
  have hdec := getNextURLAux_eq_promote f now priorityOrder
  set g := promoteScan priorityOrder f with hg
  have hlast : g.lastAccessTime = f.lastAccessTime := promoteScan_lastAccessTime _ _
  have hdelay : g.politenessDelay = f.politenessDelay := promoteScan_politenessDelay _ _
  constructor
  · intro f' hnone
    have heq : g.getFromBackQueue now = (none, f') := by rw [← hdec]; exact hnone
    cases haux : getFromBackQueueAux g.politenessDelay now g.lastAccessTime g.backQueues with
    | none =>
      simp only [URLFrontier.getFromBackQueue, haux, Prod.mk.injEq, true_and] at heq
      subst heq
      exact ⟨rfl, hlast, hdelay⟩
    | some r =>
      obtain ⟨u₀, bqs', last'⟩ := r
      simp only [URLFrontier.getFromBackQueue, haux, Prod.mk.injEq] at heq
      exact absurd heq.1 (by simp)
  · intro u f' hsome
    have heq : g.getFromBackQueue now = (some u, f') := by rw [← hdec]; exact hsome
    cases haux : getFromBackQueueAux g.politenessDelay now g.lastAccessTime g.backQueues with
    | none =>
      simp only [URLFrontier.getFromBackQueue, haux, Prod.mk.injEq] at heq
      exact absurd heq.1 (by simp)
    | some r =>
      obtain ⟨u₀, bqs', last'⟩ := r
      simp only [URLFrontier.getFromBackQueue, haux, Prod.mk.injEq,
        Option.some.injEq] at heq
      obtain ⟨rfl, rfl⟩ := heq
      obtain ⟨hst, pre, rest, post, hbq, hbq', hlastm, hel, hpre⟩ :=
        getFromBackQueueAux_some_spec _ _ _ _ _ _ _ haux
      rw [hdelay, hlast] at hel
      refine ⟨hst, pre, rest, post, hbq, hbq', ?_, hdelay, hel⟩
      show last' = mapSet f.lastAccessTime hst now
      rw [hlastm, hlast]

theorem getNextURL_none_inv (f : URLFrontier) (now : Nat) (f' : URLFrontier)
    (h : f.getNextURL now = (none, f')) (hok : HostsOk f.backQueues) :
    HostsOk f'.backQueues ∧ f'.lastAccessTime = f.lastAccessTime ∧
      f'.politenessDelay = f.politenessDelay := by
  obtain ⟨hbq, hlast, hdel⟩ := (getNextURL_cases f now).1 f' h
  exact ⟨hbq ▸ promoteScan_hostsOk priorityOrder f hok, hlast, hdel⟩

theorem getNextURL_some_inv (f : URLFrontier) (now : Nat) (u : URLInfo)
    (f' : URLFrontier) (hok : HostsOk f.backQueues)
    (h : f.getNextURL now = (some u, f')) :
    HostsOk f'.backQueues ∧
    f'.lastAccessTime = mapSet f.lastAccessTime u.host now ∧
    f'.politenessDelay = f.politenessDelay ∧
    codeEligible f.politenessDelay now f.lastAccessTime u.host := by
  obtain ⟨hst, pre, rest, post, hbq, hbq', hlastu, hdel, hel⟩ :=
    (getNextURL_cases f now).2 u f' h
  have hokp : HostsOk (promoteScan priorityOrder f).backQueues :=
    promoteScan_hostsOk priorityOrder f hok
  have hmem : (hst, u :: rest) ∈ (promoteScan priorityOrder f).backQueues := by
    rw [hbq]
    exact List.mem_append_right _ (List.mem_cons_self _ _)
  have hhost : u.host = hst := hokp (hst, u :: rest) hmem u (List.mem_cons_self _ _)
  refine ⟨?_, ?_, hdel, ?_⟩
  · intro e he v hv
    rw [hbq'] at he
    rcases List.mem_append.mp he with hpre' | hpost'
    · exact hokp e (by rw [hbq]; exact List.mem_append_left _ hpre') v hv
    · rcases List.mem_cons.mp hpost' with rfl | hpost''
      · exact hokp (hst, u :: rest) hmem v (List.mem_cons_of_mem _ hv)
      · exact hokp e
          (by rw [hbq]; exact List.mem_append_right _ (List.mem_cons_of_mem _ hpost''))
          v hv
  · rw [hlastu, hhost]
  · rw [hhost]
    exact hel

theorem lastTimes_append (h : String) (log : List (URLInfo × Nat)) (u : URLInfo)
    (t : Nat) :
    lastTimes h (log ++ [(u, t)])
      = if u.host = h then lastTimes h log ++ [t] else lastTimes h log := by
  unfold lastTimes
  rw [List.filter_append]
  by_cases hh : u.host = h
  · simp [hh]
  · simp [hh]

theorem runFrontier_polite (d : Nat) (ops : List FOp) :
    ∀ f log, f.politenessDelay = d → HostsOk f.backQueues →
      LastOk f.lastAccessTime log → PoliteLog d log →
      PoliteLog d (runFrontier f log ops).2 := by
  induction ops with
  | nil =>
    intro f log _ _ _ hp
    exact hp
  | cons op ops' ih =>
    intro f log hd hok hlo hp
    cases op with
    | add u =>
      show PoliteLog d (runFrontier (f.addURL u) log ops').2
      exact ih (f.addURL u) log hd hok hlo hp
    | next t =>
      cases hnext : f.getNextURL t with
      | mk res f' =>
        cases res with
        | none =>
          obtain ⟨hok', hlast', hdel'⟩ := getNextURL_none_inv f t f' hnext hok
          have : runFrontier f log (FOp.next t :: ops') = runFrontier f' log ops' := by
            simp only [runFrontier, hnext]
          rw [this]
          exact ih f' log (hdel'.trans hd) hok' (by rw [hlast']; exact hlo) hp
        | some u =>
          obtain ⟨hok', hlast', hdel', hel⟩ := getNextURL_some_inv f t u f' hok hnext
          have hrw : runFrontier f log (FOp.next t :: ops')
              = runFrontier f' (log ++ [(u, t)]) ops' := by
            simp only [runFrontier, hnext]
          rw [hrw]
          refine ih f' (log ++ [(u, t)]) (hdel'.trans hd) hok' ?_ ?_
          · intro h
            rw [hlast', lastTimes_append]
            by_cases hh : u.host = h
            · subst hh
              rw [if_pos rfl, lookupA_mapSet_self, List.getLast?_concat]
            · rw [if_neg hh, lookupA_mapSet_other _ _ _ _ (fun hc => hh hc.symm)]
              exact hlo h
          · intro h
            rw [lastTimes_append]
            by_cases hh : u.host = h
            · subst hh
              rw [if_pos rfl]
              rw [List.chain'_append]
              refine ⟨hp u.host, List.chain'_singleton _, ?_⟩
              intro x hx y hy
              simp only [List.head?_cons, Option.mem_def, Option.some.injEq] at hy
              subst hy
              have hlook : lookupA f.lastAccessTime u.host = some x := by
                rw [hlo u.host]
                exact hx
              rw [hd] at hel
              unfold codeEligible at hel
              rw [hlook] at hel
              simpa using hel
            · rw [if_neg hh]
              exact hp h

/-- C2: over any sequence of frontier operations started from a fresh
frontier with politeness delay `d`, any two consecutive dispatches whose
URLs share a host are at least `d` milliseconds apart: the per-host
sequence of dispatch times increases by at least `d` at every step. -/
theorem frontier_politeness_gap (d : Nat) (ops : List FOp) (h : String) :
    List.Chain' (fun a b : Nat => (d : Int) ≤ (b : Int) - (a : Int))
      (lastTimes h (runFrontier (initFrontier d) [] ops).2) := by
  refine runFrontier_polite d ops (initFrontier d) [] rfl ?_ ?_ ?_ h
  · intro e he
    cases he
  · intro hh
    rfl
  · intro hh
    simp [lastTimes]

/-! ## The deduplication stores -/

theorem mapSet_of_not_mem {α : Type} (m : List (String × α)) (k : String) (v : α)
    (h : ∀ e ∈ m, e.1 ≠ k) : mapSet m k v = m ++ [(k, v)] := by
  induction m with
  | nil => rfl
  | cons e rest ih =>
    have hek : e.1 ≠ k := h e (List.mem_cons_self _ _)
    simp only [mapSet, if_neg hek, List.cons_append, List.cons.injEq]
    exact ⟨trivial, ih (fun e' he' => h e' (List.mem_cons_of_mem _ he'))⟩

theorem mapSet_of_mem {α : Type} (m : List (String × α)) (k : String) (v : α)
    (h : k ∈ m.map (fun e => e.1)) :
    ∃ m₁ old m₂, m = m₁ ++ (k, old) :: m₂ ∧ (∀ e ∈ m₁, e.1 ≠ k) ∧
      mapSet m k v = m₁ ++ (k, v) :: m₂ := by
  induction m with
  | nil => simp at h
  | cons e rest ih =>
    by_cases hek : e.1 = k
    · refine ⟨[], e.2, rest, ?_, by simp, ?_⟩
      · simp [← hek]
      · simp only [mapSet, if_pos hek, List.nil_append]
    · have h' : k ∈ rest.map (fun e => e.1) := by
        rcases List.mem_map.mp h with ⟨e', he', hk⟩
        rcases List.mem_cons.mp he' with rfl | he''
        · exact absurd hk hek
        · exact List.mem_map.mpr ⟨e', he'', hk⟩
      obtain ⟨m₁, old, m₂, hm, hm₁, hset⟩ := ih h'
      refine ⟨e :: m₁, old, m₂, by simp [hm], ?_, ?_⟩
      · intro e' he'
        rcases List.mem_cons.mp he' with rfl | he''
        · exact hek
        · exact hm₁ e' he''
      · simp only [mapSet, if_neg hek, hset, List.cons_append]

theorem mapSet_length {α : Type} (m : List (String × α)) (k : String) (v : α) :
    (mapSet m k v).length =
      if (m.map (fun e => e.1)).contains k then m.length else m.length + 1 := by
  induction m with
  | nil => simp [mapSet]
  | cons e rest ih =>
    by_cases hek : e.1 = k
    · simp [mapSet, hek]
    · have hbeq : (k == e.1) = false := beq_eq_false_iff_ne.mpr (Ne.symm hek)
      simp only [mapSet, if_neg hek, List.length_cons, ih, List.map_cons,
        List.contains_cons, hbeq, Bool.false_or]
      by_cases hk : (rest.map (fun e => e.1)).contains k
      · rw [if_pos hk, if_pos hk]
      · rw [if_neg hk, if_neg hk]

theorem store_keysInv (s : ContentStorage) (r : CrawlResult)
    (h : StoreKeysInv s) : StoreKeysInv (s.store r) := by
  obtain ⟨hkeys, hurl⟩ := h
  by_cases hmem : r.url ∈ s.storage.map (fun e => e.1)
  · obtain ⟨m₁, old, m₂, hm, hm₁, hset⟩ := mapSet_of_mem s.storage r.url r hmem
    constructor
    · show ((mapSet s.storage r.url r).map (fun e => e.1)).Nodup
      rw [hset]
      have : (m₁ ++ (r.url, r) :: m₂).map (fun e => e.1)
          = (m₁ ++ (r.url, old) :: m₂).map (fun e => e.1) := by
        simp
      rw [this, ← hm]
      exact hkeys
    · intro e he
      show e.2.url = e.1
      rw [ContentStorage.store] at he
      simp only at he
      rw [hset] at he
      rcases List.mem_append.mp he with h₁ | h₂
      · exact hurl e (by rw [hm]; exact List.mem_append_left _ h₁)
      · rcases List.mem_cons.mp h₂ with rfl | h₃
        · rfl
        · exact hurl e (by rw [hm]; exact List.mem_append_right _ (List.mem_cons_of_mem _ h₃))
  · have hset := mapSet_of_not_mem s.storage r.url r
      (fun e he hk => hmem (List.mem_map.mpr ⟨e, he, hk⟩))
    constructor
    · show ((mapSet s.storage r.url r).map (fun e => e.1)).Nodup
      rw [hset]
      simp only [List.map_append, List.map_cons, List.map_nil]
      rw [List.nodup_append]
      refine ⟨hkeys, List.nodup_singleton _, ?_⟩
      intro a ha hb
      simp only [List.mem_singleton] at hb
      subst hb
      exact hmem ha
    · intro e he
      show e.2.url = e.1
      rw [ContentStorage.store] at he
      simp only at he
      rw [hset] at he
      rcases List.mem_append.mp he with h₁ | h₂
      · exact hurl e h₁
      · simp only [List.mem_singleton] at h₂
        subst h₂
        rfl

theorem store_inv (s : ContentStorage) (r : CrawlResult) (hinv : s.Inv)
    (hnew : s.isContentSeen r.hash = false) : (s.store r).Inv := by
  obtain ⟨hkeys, hhash, hnodup⟩ := hinv
  have hnotseen : r.hash ∉ s.seenHashes := by
    intro hmem
    have hc : s.seenHashes.contains r.hash = true := List.elem_iff.mpr hmem
    rw [ContentStorage.isContentSeen, hc] at hnew
    simp at hnew
  have hhash_ne : ∀ e ∈ s.storage, e.2.hash ≠ r.hash := by
    intro e he heq
    exact hnotseen (heq ▸ hhash e he)
  refine ⟨store_keysInv s r hkeys, ?_, ?_⟩
  · intro e he
    show e.2.hash ∈ setAdd s.seenHashes r.hash
    rw [ContentStorage.store] at he
    simp only at he
    by_cases hmem : r.url ∈ s.storage.map (fun x => x.1)
    · obtain ⟨m₁, old, m₂, hm, _, hset⟩ := mapSet_of_mem s.storage r.url r hmem
      rw [hset] at he
      rcases List.mem_append.mp he with h₁ | h₂
      · exact setAdd_mem _ _ _ (hhash e (by rw [hm]; exact List.mem_append_left _ h₁))
      · rcases List.mem_cons.mp h₂ with rfl | h₃
        · exact mem_setAdd_self _ _
        · exact setAdd_mem _ _ _
            (hhash e (by rw [hm]; exact List.mem_append_right _ (List.mem_cons_of_mem _ h₃)))
    · rw [mapSet_of_not_mem s.storage r.url r
        (fun e' he' hk => hmem (List.mem_map.mpr ⟨e', he', hk⟩))] at he
      rcases List.mem_append.mp he with h₁ | h₂
      · exact setAdd_mem _ _ _ (hhash e h₁)
      · simp only [List.mem_singleton] at h₂
        subst h₂
        exact mem_setAdd_self _ _
  · show ((mapSet s.storage r.url r).map (fun e => e.2.hash)).Nodup
    by_cases hmem : r.url ∈ s.storage.map (fun x => x.1)
    · obtain ⟨m₁, old, m₂, hm, _, hset⟩ := mapSet_of_mem s.storage r.url r hmem
      rw [hset]
      rw [hm] at hnodup
      simp only [List.map_append, List.map_cons] at hnodup ⊢
      have hold := (List.perm_middle.nodup_iff).mp hnodup
      rw [List.nodup_cons] at hold
      refine (List.perm_middle.nodup_iff).mpr ?_
      rw [List.nodup_cons]
      refine ⟨?_, hold.2⟩
      intro hr
      rcases List.mem_append.mp hr with h₁ | h₂
      · rcases List.mem_map.mp h₁ with ⟨e, he, hx⟩
        exact hhash_ne e (by rw [hm]; exact List.mem_append_left _ he) hx
      · rcases List.mem_map.mp h₂ with ⟨e, he, hx⟩
        exact hhash_ne e
          (by rw [hm]; exact List.mem_append_right _ (List.mem_cons_of_mem _ he)) hx
    · rw [mapSet_of_not_mem s.storage r.url r
        (fun e' he' hk => hmem (List.mem_map.mpr ⟨e', he', hk⟩))]
      simp only [List.map_append, List.map_cons, List.map_nil]
      rw [List.nodup_append]
      refine ⟨hnodup, List.nodup_singleton _, ?_⟩
      intro a ha hb
      simp only [List.mem_singleton] at hb
      subst hb
      rcases List.mem_map.mp ha with ⟨e, he, hx⟩
      exact hhash_ne e he hx

theorem keysInv_urls_nodup (s : ContentStorage) (h : StoreKeysInv s) :
    ((s.getAllResults).map (fun r => r.url)).Nodup := by
  obtain ⟨hkeys, hurl⟩ := h
  have heq : (s.getAllResults).map (fun r => r.url) = s.storage.map (fun e => e.1) := by
    unfold ContentStorage.getAllResults
    rw [List.map_map]
    exact List.map_eq_map_iff.mpr (fun e he => hurl e he)
  rw [heq]
  exact hkeys

theorem foldl_store_keysInv (rs : List CrawlResult) :
    StoreKeysInv (rs.foldl ContentStorage.store emptyCS) := by
  have hstep : ∀ s, StoreKeysInv s → StoreKeysInv (rs.foldl ContentStorage.store s) := by
    induction rs with
    | nil =>
      intro s h
      exact h
    | cons r rs' ih =>
      intro s h
      exact ih _ (store_keysInv s r h)
  exact hstep emptyCS ⟨by simp [emptyCS], by simp [emptyCS]⟩

/-! ## The crawl-loop step -/

theorem linkStep_urlStorage (env : CrawlEnv) (u : URLInfo) (now : Nat)
    (acc : CrawlerState) (link : String) :
    (linkStep env u now acc link).urlStorage = acc.urlStorage := by
  unfold linkStep
  split <;> rfl

theorem linkStep_contentStorage (env : CrawlEnv) (u : URLInfo) (now : Nat)
    (acc : CrawlerState) (link : String) :
    (linkStep env u now acc link).contentStorage = acc.contentStorage := by
  unfold linkStep
  split <;> rfl

theorem linkStep_crawledCount (env : CrawlEnv) (u : URLInfo) (now : Nat)
    (acc : CrawlerState) (link : String) :
    (linkStep env u now acc link).crawledCount = acc.crawledCount := by
  unfold linkStep
  split <;> rfl

theorem foldl_linkStep_fields (env : CrawlEnv) (u : URLInfo) (now : Nat)
    (links : List String) : ∀ st : CrawlerState,
    ((links.foldl (linkStep env u now) st).urlStorage = st.urlStorage) ∧
    ((links.foldl (linkStep env u now) st).contentStorage = st.contentStorage) ∧
    ((links.foldl (linkStep env u now) st).crawledCount = st.crawledCount) := by
  induction links with
  | nil =>
    intro st
    exact ⟨rfl, rfl, rfl⟩
  | cons l ls ih =>
    intro st
    simp only [List.foldl_cons]
    obtain ⟨h1, h2, h3⟩ := ih (linkStep env u now st l)
    exact ⟨h1.trans (linkStep_urlStorage env u now st l),
           h2.trans (linkStep_contentStorage env u now st l),
           h3.trans (linkStep_crawledCount env u now st l)⟩

theorem foldl_linkStep_frontier (env : CrawlEnv) (u : URLInfo) (now : Nat)
    (links : List String) : ∀ st : CrawlerState,
    links.foldl (linkStep env u now) st =
      { st with frontier :=
          ((links.filter (fun l => env.isValidURL l && !st.urlStorage.isURLSeen l)).foldl
            (fun fr l => fr.addURL (childInfo env u now l)) st.frontier) } := by
  induction links with
  | nil =>
    intro st
    rfl
  | cons l ls ih =>
    intro st
    simp only [List.foldl_cons, List.filter_cons]
    cases hcond : env.isValidURL l && !st.urlStorage.isURLSeen l with
    | false =>
      have hls : linkStep env u now st l = st := by
        unfold linkStep
        rw [hcond]
        rfl
      rw [hls, ih st]
      simp
    | true =>
      have hls : linkStep env u now st l
          = { st with frontier := st.frontier.addURL (childInfo env u now l) } := by
        unfold linkStep
        rw [hcond]
        rfl
      rw [hls, ih]
      simp

theorem processURL_guard_false (env : CrawlEnv) (st : CrawlerState) (u : URLInfo)
    (h1 : st.urlStorage.isURLSeen u.url = false) (h2 : u.depth ≤ env.maxDepth) :
    (st.urlStorage.isURLSeen u.url || decide (env.maxDepth < u.depth)) = false := by
  rw [h1]
  simp [Nat.not_lt.mpr h2]

theorem processURL_discarded (env : CrawlEnv) (st : CrawlerState) (u : URLInfo)
    (now : Nat)
    (h : st.urlStorage.isURLSeen u.url = true ∨ env.maxDepth < u.depth) :
    processURL env st u now = (st, .discarded) := by
  unfold processURL
  rcases h with h | h
  · rw [h]
    simp
  · rw [decide_eq_true h]
    simp

theorem processURL_fetchFailed (env : CrawlEnv) (st : CrawlerState) (u : URLInfo)
    (now : Nat) (h1 : st.urlStorage.isURLSeen u.url = false)
    (h2 : u.depth ≤ env.maxDepth) (h3 : env.fetch u.url = none) :
    processURL env st u now
      = ({ st with urlStorage := st.urlStorage.markAsVisited u.url }, .fetchFailed) := by
  simp only [processURL, processURL_guard_false env st u h1 h2, Bool.false_eq_true,
    if_false, h3]

theorem processURL_duplicate (env : CrawlEnv) (st : CrawlerState) (u : URLInfo)
    (now : Nat) (pg : FetchedPage) (h1 : st.urlStorage.isURLSeen u.url = false)
    (h2 : u.depth ≤ env.maxDepth) (h3 : env.fetch u.url = some pg)
    (h4 : st.contentStorage.isContentSeen (env.hashFn pg.content) = true) :
    processURL env st u now
      = ({ st with urlStorage := st.urlStorage.markAsVisited u.url },
         .duplicateContent) := by
  simp only [processURL, processURL_guard_false env st u h1 h2, Bool.false_eq_true,
    if_false, h3, h4, if_true]

theorem processURL_stored (env : CrawlEnv) (st : CrawlerState) (u : URLInfo)
    (now : Nat) (pg : FetchedPage) (h1 : st.urlStorage.isURLSeen u.url = false)
    (h2 : u.depth ≤ env.maxDepth) (h3 : env.fetch u.url = some pg)
    (h4 : st.contentStorage.isContentSeen (env.hashFn pg.content) = false) :
    processURL env st u now
      = ({ st with
            frontier := (((env.parseLinks pg.content u.url).filter
                (fun l => env.isValidURL l &&
                  !(st.urlStorage.markAsVisited u.url).isURLSeen l)).foldl
                (fun fr l => fr.addURL (childInfo env u now l)) st.frontier),
            contentStorage := st.contentStorage.store
              { url := u.url, content := pg.content,
                links := env.parseLinks pg.content u.url,
                statusCode := pg.statusCode, contentType := pg.contentType,
                hash := env.hashFn pg.content },
            urlStorage := st.urlStorage.markAsVisited u.url,
            crawledCount := st.crawledCount + 1 }, .stored) := by
  simp only [processURL, processURL_guard_false env st u h1 h2, Bool.false_eq_true,
    if_false, h3, h4]
  rw [foldl_linkStep_frontier]

theorem isURLSeen_markAsVisited_self (s : URLStorage) (url : String) :
    (s.markAsVisited url).isURLSeen url = true := by
  show (setAdd s.visitedUrls url).contains url = true
  exact List.elem_iff.mpr (mem_setAdd_self _ _)

theorem isURLSeen_markAsVisited_mono (s : URLStorage) (url x : String)
    (h : s.isURLSeen x = true) : (s.markAsVisited url).isURLSeen x = true := by
  have hx : x ∈ s.visitedUrls := List.elem_iff.mp h
  show (setAdd s.visitedUrls url).contains x = true
  exact List.elem_iff.mpr (setAdd_mem _ _ _ hx)

theorem processURL_urlStorage_cases (env : CrawlEnv) (st : CrawlerState)
    (u : URLInfo) (now : Nat) :
    (processURL env st u now).1.urlStorage = st.urlStorage ∨
    (processURL env st u now).1.urlStorage = st.urlStorage.markAsVisited u.url := by
  unfold processURL
  by_cases hg : (st.urlStorage.isURLSeen u.url || decide (env.maxDepth < u.depth)) = true
  · rw [hg]
    simp
  · rw [Bool.not_eq_true] at hg
    rw [hg]
    simp only [Bool.false_eq_true, if_false]
    cases h3 : env.fetch u.url with
    | none => simp
    | some pg =>
      simp only
      by_cases h4 : st.contentStorage.isContentSeen (env.hashFn pg.content) = true
      · rw [h4]
        simp
      · rw [Bool.not_eq_true] at h4
        rw [h4]
        simp only [Bool.false_eq_true, if_false]
        exact Or.inr ((foldl_linkStep_fields env u now _ _).1)

theorem processURL_contentStorage_cases (env : CrawlEnv) (st : CrawlerState)
    (u : URLInfo) (now : Nat) :
    (processURL env st u now).1.contentStorage = st.contentStorage ∨
    ∃ r, (processURL env st u now).1.contentStorage = st.contentStorage.store r ∧
      st.contentStorage.isContentSeen r.hash = false := by
  unfold processURL
  by_cases hg : (st.urlStorage.isURLSeen u.url || decide (env.maxDepth < u.depth)) = true
  · rw [hg]
    simp
  · rw [Bool.not_eq_true] at hg
    rw [hg]
    simp only [Bool.false_eq_true, if_false]
    cases h3 : env.fetch u.url with
    | none => simp
    | some pg =>
      simp only
      by_cases h4 : st.contentStorage.isContentSeen (env.hashFn pg.content) = true
      · rw [h4]
        simp
      · rw [Bool.not_eq_true] at h4
        rw [h4]
        simp only [Bool.false_eq_true, if_false]
        refine Or.inr ⟨⟨u.url, pg.content, env.parseLinks pg.content u.url, pg.statusCode, pg.contentType, env.hashFn pg.content⟩, ?_, h4⟩
        exact (foldl_linkStep_fields env u now _ _).2.1

theorem processURL_visited_mono (env : CrawlEnv) (st : CrawlerState) (u : URLInfo)
    (now : Nat) (x : String) (h : st.urlStorage.isURLSeen x = true) :
    (processURL env st u now).1.urlStorage.isURLSeen x = true := by
  rcases processURL_urlStorage_cases env st u now with h' | h'
  · rw [h']
    exact h
  · rw [h']
    exact isURLSeen_markAsVisited_mono _ _ _ h

theorem processURL_visited_nodup (env : CrawlEnv) (st : CrawlerState) (u : URLInfo)
    (now : Nat) (h : st.urlStorage.visitedUrls.Nodup) :
    (processURL env st u now).1.urlStorage.visitedUrls.Nodup := by
  rcases processURL_urlStorage_cases env st u now with h' | h' <;> rw [h']
  · exact h
  · exact setAdd_nodup _ _ h

theorem processURL_contentStorage_inv (env : CrawlEnv) (st : CrawlerState)
    (u : URLInfo) (now : Nat) (h : st.contentStorage.Inv) :
    (processURL env st u now).1.contentStorage.Inv := by
  rcases processURL_contentStorage_cases env st u now with h' | ⟨r, h', hns⟩
  · rw [h']
    exact h
  · rw [h']
    exact store_inv _ _ h hns

/-! ## The crawl loop -/

theorem crawlLoop_succ_eq (env : CrawlEnv) (n : Nat) (times : List Nat)
    (st : CrawlerState)
    (hc : st.frontier.isEmpty = false ∧ st.crawledCount < env.maxPages) :
    crawlLoop env (n + 1) times st =
      match st.frontier.getNextURL (times.headD 0) with
      | (none, f') => crawlLoop env n times.tail { st with frontier := f' }
      | (some u, f') =>
        ((crawlLoop env n times.tail
            (processURL env { st with frontier := f' } u (times.headD 0)).1).1,
         { info := u, time := times.headD 0,
           visitedAtDispatch := st.urlStorage.isURLSeen u.url,
           outcome := (processURL env { st with frontier := f' } u (times.headD 0)).2 } ::
         (crawlLoop env n times.tail
            (processURL env { st with frontier := f' } u (times.headD 0)).1).2) := by
  simp only [crawlLoop, if_pos hc]

theorem crawlLoop_halt (env : CrawlEnv) (n : Nat) (times : List Nat)
    (st : CrawlerState)
    (hc : ¬(st.frontier.isEmpty = false ∧ st.crawledCount < env.maxPages)) :
    crawlLoop env (n + 1) times st = (st, []) := by
  simp only [crawlLoop, if_neg hc]

theorem crawlLoop_stop_on_budget (env : CrawlEnv) (fuel : Nat) (times : List Nat)
    (st : CrawlerState) (h : env.maxPages ≤ st.crawledCount) :
    crawlLoop env fuel times st = (st, []) := by
  cases fuel with
  | zero => rfl
  | succ n => exact crawlLoop_halt env n times st (fun hc => absurd hc.2 (Nat.not_lt.mpr h))

theorem crawlLoop_visited_mono (env : CrawlEnv) (fuel : Nat) :
    ∀ (times : List Nat) (st : CrawlerState) (x : String),
      st.urlStorage.isURLSeen x = true →
      (crawlLoop env fuel times st).1.urlStorage.isURLSeen x = true := by
  induction fuel with
  | zero =>
    intro times st x h
    exact h
  | succ n ih =>
    intro times st x h
    by_cases hc : st.frontier.isEmpty = false ∧ st.crawledCount < env.maxPages
    · rw [crawlLoop_succ_eq env n times st hc]
      cases hnext : st.frontier.getNextURL (times.headD 0) with
      | mk res f' =>
        cases res with
        | none => exact ih times.tail _ x h
        | some u => exact ih times.tail _ x (processURL_visited_mono env _ u _ x h)
    · rw [crawlLoop_halt env n times st hc]
      exact h

theorem crawlLoop_visited_nodup (env : CrawlEnv) (fuel : Nat) :
    ∀ (times : List Nat) (st : CrawlerState),
      st.urlStorage.visitedUrls.Nodup →
      (crawlLoop env fuel times st).1.urlStorage.visitedUrls.Nodup := by
  induction fuel with
  | zero =>
    intro times st h
    exact h
  | succ n ih =>
    intro times st h
    by_cases hc : st.frontier.isEmpty = false ∧ st.crawledCount < env.maxPages
    · rw [crawlLoop_succ_eq env n times st hc]
      cases hnext : st.frontier.getNextURL (times.headD 0) with
      | mk res f' =>
        cases res with
        | none => exact ih times.tail _ h
        | some u => exact ih times.tail _ (processURL_visited_nodup env _ u _ h)
    · rw [crawlLoop_halt env n times st hc]
      exact h

theorem crawlLoop_contentStorage_inv (env : CrawlEnv) (fuel : Nat) :
    ∀ (times : List Nat) (st : CrawlerState),
      st.contentStorage.Inv →
      (crawlLoop env fuel times st).1.contentStorage.Inv := by
  induction fuel with
  | zero =>
    intro times st h
    exact h
  | succ n ih =>
    intro times st h
    by_cases hc : st.frontier.isEmpty = false ∧ st.crawledCount < env.maxPages
    · rw [crawlLoop_succ_eq env n times st hc]
      cases hnext : st.frontier.getNextURL (times.headD 0) with
      | mk res f' =>
        cases res with
        | none => exact ih times.tail _ h
        | some u => exact ih times.tail _ (processURL_contentStorage_inv env _ u _ h)
    · rw [crawlLoop_halt env n times st hc]
      exact h

theorem crawlLoop_visited_dispatch_discarded (env : CrawlEnv) (fuel : Nat) :
    ∀ (times : List Nat) (st : CrawlerState),
      ∀ e ∈ (crawlLoop env fuel times st).2,
        e.visitedAtDispatch = true → e.outcome = .discarded := by
  induction fuel with
  | zero =>
    intro times st e he
    cases he
  | succ n ih =>
    intro times st e he hv
    by_cases hc : st.frontier.isEmpty = false ∧ st.crawledCount < env.maxPages
    · rw [crawlLoop_succ_eq env n times st hc] at he
      cases hnext : st.frontier.getNextURL (times.headD 0) with
      | mk res f' =>
        rw [hnext] at he
        cases res with
        | none => exact ih times.tail _ e he hv
        | some u =>
          simp only [List.mem_cons] at he
          rcases he with rfl | he'
          · simp only at hv
            have : processURL env { st with frontier := f' } u (times.headD 0)
                = ({ st with frontier := f' }, .discarded) :=
              processURL_discarded env _ u _ (Or.inl hv)
            simp only [this]
          · exact ih times.tail _ e he' hv
    · rw [crawlLoop_halt env n times st hc] at he
      cases he

theorem crawlLoop_url_seen_discarded (env : CrawlEnv) (fuel : Nat) :
    ∀ (times : List Nat) (st : CrawlerState) (x : String),
      st.urlStorage.isURLSeen x = true →
      ∀ e ∈ (crawlLoop env fuel times st).2,
        e.info.url = x → e.outcome = .discarded := by
  induction fuel with
  | zero =>
    intro times st x hx e he
    cases he
  | succ n ih =>
    intro times st x hx e he hurl
    by_cases hc : st.frontier.isEmpty = false ∧ st.crawledCount < env.maxPages
    · rw [crawlLoop_succ_eq env n times st hc] at he
      cases hnext : st.frontier.getNextURL (times.headD 0) with
      | mk res f' =>
        rw [hnext] at he
        cases res with
        | none => exact ih times.tail { st with frontier := f' } x hx e he hurl
        | some u =>
          simp only [List.mem_cons] at he
          rcases he with rfl | he'
          · simp only at hurl ⊢
            have hseen : st.urlStorage.isURLSeen u.url = true := by
              rw [hurl]
              exact hx
            have : processURL env { st with frontier := f' } u (times.headD 0)
                = ({ st with frontier := f' }, .discarded) :=
              processURL_discarded env _ u _ (Or.inl hseen)
            simp only [this]
          · exact ih times.tail
              (processURL env { st with frontier := f' } u (times.headD 0)).1 x
              (processURL_visited_mono env { st with frontier := f' } u (times.headD 0) x hx)
              e he' hurl
    · rw [crawlLoop_halt env n times st hc] at he
      cases he

/-! ## Concrete inputs used by the witnesses and counterexamples -/

/-! ## Claim theorems -/

/-- Witness for C1: the hypothesis `politenessDelay ≤ now` is satisfiable
and the dispatch specification holds at a concrete frontier and clock. -/
theorem getNextURL_satisfies_dispatch_spec_witness :
    (wFrontier.politenessDelay ≤ 5) ∧ DispatchSpec wFrontier 5 :=
  ⟨by decide, getNextURL_satisfies_dispatch_spec wFrontier 5 (by decide)⟩

/-- Witness for C3 (amended): the five-tier length hypothesis holds of the
constructor-built frontier and the insertion specification follows. -/
theorem addURL_insertion_spec_witness :
    ((initFrontier 0).frontQueues.length = 5) ∧ AddURLSpec (initFrontier 0) uA :=
  ⟨rfl, addURL_insertion_spec (initFrontier 0) uA rfl⟩

/-- C4 (counterexample): with `maxDepth = 0`, link `B` (depth 1) is
dispatched by the crawl loop but the iteration that consumes it never adds
it to the visited set — by the end of the whole run `B` is still not in
the set, contradicting "added to the VisitedSet exactly once ... including
silent discard for being over the depth limit". -/
theorem depth_discarded_url_never_marked_visited :
    ((crawlRun exEnvDepth0 0 6 [0, 0, 0, 0, 0, 0] ["A"]).2.any
      (fun e => e.info.url == "B")) = true ∧
    ((crawlRun exEnvDepth0 0 6 [0, 0, 0, 0, 0, 0] ["A"]).1.urlStorage.visitedUrls.contains
      "B") = false :=
  ⟨rfl, rfl⟩

/-- C4 (amended): every URL returned by dispatchNext is in the visited set
at most once by the end of the iteration that consumed it; it IS in the
set by then in every outcome except the silent discard, an already-visited
URL stays in the set, but a not-yet-visited URL over the depth limit is
silently discarded without being added. -/
theorem dispatched_url_visited_unless_depth_discard (env : CrawlEnv)
    (st : CrawlerState) (u : URLInfo) (now : Nat)
    (hnodup : st.urlStorage.visitedUrls.Nodup) :
    VisitedMarkSpec env st u now := by
  refine ⟨processURL_visited_nodup env st u now hnodup, ?_,
    fun h => processURL_visited_mono env st u now u.url h,
    fun h1 h2 => processURL_discarded env st u now (Or.inr h2)⟩
  intro hout
  by_cases hg : (st.urlStorage.isURLSeen u.url || decide (env.maxDepth < u.depth)) = true
  · exfalso
    apply hout
    have hd : processURL env st u now = (st, .discarded) := by
      unfold processURL
      rw [hg]
      simp
    rw [hd]
  · rw [Bool.not_eq_true] at hg
    obtain ⟨h1, hb⟩ := Bool.or_eq_false_iff.mp hg
    have h2 : u.depth ≤ env.maxDepth := Nat.not_lt.mp (of_decide_eq_false hb)
    cases h3 : env.fetch u.url with
    | none =>
      rw [processURL_fetchFailed env st u now h1 h2 h3]
      exact isURLSeen_markAsVisited_self _ _
    | some pg =>
      by_cases h4 : st.contentStorage.isContentSeen (env.hashFn pg.content) = true
      · rw [processURL_duplicate env st u now pg h1 h2 h3 h4]
        exact isURLSeen_markAsVisited_self _ _
      · rw [Bool.not_eq_true] at h4
        rw [processURL_stored env st u now pg h1 h2 h3 h4]
        exact isURLSeen_markAsVisited_self _ _

/-- Witness for C4 (amended) at a concrete state and URL. -/
theorem dispatched_url_visited_unless_depth_discard_witness :
    (initState 0).urlStorage.visitedUrls.Nodup ∧
    VisitedMarkSpec exEnv (initState 0) uA 0 :=
  ⟨by simp [initState], dispatched_url_visited_unless_depth_discard exEnv
    (initState 0) uA 0 (by simp [initState])⟩

/-- C5 (counterexample): in a concrete run of the orchestrator, pages `A`
and `B` both link to `C`; `C` is enqueued twice before its first dispatch,
so a later `dispatchNext` call returns `C` when `C` is already in the
visited set — the frontier does hold the same URL twice and dispatch of an
already-visited URL does occur. -/
theorem dispatch_can_return_visited_url :
    ((crawlRun exEnv 0 6 [0, 0, 0, 0, 0, 0] ["A"]).2.any
      (fun e => e.visitedAtDispatch)) = true := rfl

/-- C5 (amended): each URL appears in the visited set at most once (the
set stays duplicate-free), and although `dispatchNext` can return a URL
already in the visited set (when the same URL was enqueued more than once
before its first dispatch), every such dispatch is silently discarded by
the orchestrator. -/
theorem visited_nodup_and_revisits_discarded (env : CrawlEnv) (fuel : Nat)
    (times : List Nat) (st : CrawlerState)
    (hnodup : st.urlStorage.visitedUrls.Nodup) :
    ((crawlLoop env fuel times st).1.urlStorage.visitedUrls.Nodup) ∧
    (∀ e ∈ (crawlLoop env fuel times st).2,
      e.visitedAtDispatch = true → e.outcome = .discarded) :=
  ⟨crawlLoop_visited_nodup env fuel times st hnodup,
   crawlLoop_visited_dispatch_discarded env fuel times st⟩

/-- Witness for C5 (amended) on the concrete three-page run. -/
theorem visited_nodup_and_revisits_discarded_witness :
    (initState 0).urlStorage.visitedUrls.Nodup ∧
    (((crawlLoop exEnv 6 [0, 0, 0, 0, 0, 0] (initState 0)).1.urlStorage.visitedUrls.Nodup) ∧
     (∀ e ∈ (crawlLoop exEnv 6 [0, 0, 0, 0, 0, 0] (initState 0)).2,
       e.visitedAtDispatch = true → e.outcome = .discarded)) :=
  ⟨by simp [initState], visited_nodup_and_revisits_discarded exEnv 6
    [0, 0, 0, 0, 0, 0] (initState 0) (by simp [initState])⟩

/-- C6: a link whose depth equals `maxDepth + 1` is silently discarded with
the state unchanged, whatever the fetch collaborator would return (so it is
never fetched); and as soon as the count of successfully stored pages has
reached `maxPages` the crawl loop dispatches nothing and returns
immediately, however full the frontier still is. -/
theorem depth_limit_and_page_budget (env : CrawlEnv) :
    (∀ (g : String → Option FetchedPage) (st : CrawlerState) (u : URLInfo)
      (now : Nat), u.depth = env.maxDepth + 1 →
      processURL { env with fetch := g } st u now = (st, .discarded)) ∧
    (∀ (fuel : Nat) (times : List Nat) (st : CrawlerState),
      env.maxPages ≤ st.crawledCount →
      crawlLoop env fuel times st = (st, [])) := by
  constructor
  · intro g st u now hd
    refine processURL_discarded _ st u now (Or.inr ?_)
    show env.maxDepth < u.depth
    rw [hd]
    exact Nat.lt_succ_self _
  · intro fuel times st h
    exact crawlLoop_stop_on_budget env fuel times st h

/-- Witness for C6: a depth-1 link under `maxDepth = 0` is discarded
untouched, and a full budget halts the loop at once. -/
theorem depth_limit_and_page_budget_witness :
    (uB1.depth = exEnvDepth0.maxDepth + 1) ∧
    processURL { exEnvDepth0 with fetch := exEnvDepth0.fetch } (initState 0) uB1 0
      = (initState 0, .discarded) ∧
    (exEnv.maxPages ≤ exBudgetState.crawledCount) ∧
    crawlLoop exEnv 3 [0, 0, 0] exBudgetState = (exBudgetState, []) :=
  ⟨rfl,
   (depth_limit_and_page_budget exEnvDepth0).1 exEnvDepth0.fetch (initState 0) uB1 0 rfl,
   by decide,
   (depth_limit_and_page_budget exEnv).2 3 [0, 0, 0] exBudgetState (by decide)⟩

/-- C7: on a successfully fetched, non-duplicate page, each extracted link
is enqueued if and only if it passes the URL filter and is not yet in the
visited set (which by then contains the parent), and the `URLInfo` built
for it has priority `max 0 (parent.priority - 1)` and depth
`parent.depth + 1`; the record is stored, the parent marked visited and
the stored-page counter incremented. -/
theorem extracted_links_enqueue_spec (env : CrawlEnv) (st : CrawlerState)
    (u : URLInfo) (now : Nat) (pg : FetchedPage)
    (h1 : st.urlStorage.isURLSeen u.url = false) (h2 : u.depth ≤ env.maxDepth)
    (h3 : env.fetch u.url = some pg)
    (h4 : st.contentStorage.isContentSeen (env.hashFn pg.content) = false) :
    processURL env st u now
      = ({ st with
            frontier := (((env.parseLinks pg.content u.url).filter
                (fun l => env.isValidURL l &&
                  !(st.urlStorage.markAsVisited u.url).isURLSeen l)).foldl
                (fun fr l => fr.addURL
                  { url := l, priority := max 0 (u.priority - 1),
                    depth := u.depth + 1, host := env.hostOf l, timestamp := now })
                st.frontier),
            contentStorage := st.contentStorage.store
              { url := u.url, content := pg.content,
                links := env.parseLinks pg.content u.url,
                statusCode := pg.statusCode, contentType := pg.contentType,
                hash := env.hashFn pg.content },
            urlStorage := st.urlStorage.markAsVisited u.url,
            crawledCount := st.crawledCount + 1 }, .stored) :=
  processURL_stored env st u now pg h1 h2 h3 h4

/-- Witness for C7: processing seed `A` of the three-page site stores its
record and enqueues `B` and `C` at priority 3, depth 1 — the fully
evaluated state. -/
theorem extracted_links_enqueue_spec_witness :
    ((initState 0).urlStorage.isURLSeen uA.url = false) ∧
    (exEnv.fetch uA.url = some pgA) ∧
    processURL exEnv (initState 0) uA 0
      = (⟨⟨[[], [], [], [(⟨"B", 3, 1, "B", 0⟩, 3), (⟨"C", 3, 1, "C", 0⟩, 3)], []], [], [], 0⟩,
          ⟨[("A", ⟨"A", "ca", ["B", "C"], 200, "text/html", "ca"⟩)], ["ca"]⟩,
          ⟨["A"]⟩, 1⟩, .stored) :=
  ⟨rfl, rfl,
   extracted_links_enqueue_spec exEnv (initState 0) uA 0 pgA rfl (by decide) rfl rfl⟩

/-- C8: in every state the crawl loop can reach from a state whose content
storage satisfies its invariant, at most one stored CrawlRecord carries any
given fingerprint (the hashes of `getAllResults` are pairwise distinct);
and when a fetched body's fingerprint has already been seen, the iteration
only marks the URL visited — no record is stored, no links are enqueued,
nothing else changes. -/
theorem fingerprint_unique_and_duplicate_branch (env : CrawlEnv) :
    (∀ (fuel : Nat) (times : List Nat) (st : CrawlerState),
      st.contentStorage.Inv →
      (((crawlLoop env fuel times st).1.contentStorage.getAllResults.map
        (fun r => r.hash)).Nodup)) ∧
    (∀ (st : CrawlerState) (u : URLInfo) (now : Nat) (pg : FetchedPage),
      st.urlStorage.isURLSeen u.url = false → u.depth ≤ env.maxDepth →
      env.fetch u.url = some pg →
      st.contentStorage.isContentSeen (env.hashFn pg.content) = true →
      processURL env st u now
        = ({ st with urlStorage := st.urlStorage.markAsVisited u.url },
           .duplicateContent)) := by
  constructor
  · intro fuel times st hinv
    have h := (crawlLoop_contentStorage_inv env fuel times st hinv).2.2
    unfold ContentStorage.getAllResults
    rw [List.map_map]
    exact h
  · intro st u now pg h1 h2 h3 h4
    exact processURL_duplicate env st u now pg h1 h2 h3 h4

/-- Witness for C8: the invariant holds of the empty storage (and is
preserved through a concrete run), and a concrete duplicate-fingerprint
dispatch takes the duplicate branch. -/
theorem fingerprint_unique_and_duplicate_branch_witness :
    (initState 0).contentStorage.Inv ∧
    (((crawlLoop exEnv 6 [0, 0, 0, 0, 0, 0] (initState 0)).1.contentStorage.getAllResults.map
      (fun r => r.hash)).Nodup) ∧
    (dupState.contentStorage.isContentSeen (exEnv.hashFn pgA.content) = true) ∧
    processURL exEnv dupState uA 0
      = ({ dupState with urlStorage := dupState.urlStorage.markAsVisited uA.url },
         .duplicateContent) :=
  ⟨by simp [initState, emptyCS, ContentStorage.Inv, StoreKeysInv],
   (fingerprint_unique_and_duplicate_branch exEnv).1 6 [0, 0, 0, 0, 0, 0] (initState 0)
     (by simp [initState, emptyCS, ContentStorage.Inv, StoreKeysInv]),
   rfl,
   (fingerprint_unique_and_duplicate_branch exEnv).2 dupState uA 0 pgA rfl (by decide) rfl rfl⟩

/-- C9: when the downloader fails on a dispatched URL (robots disallow,
DNS failure, bad status or timeout — all modelled as `fetch = none`), the
iteration only marks that URL visited and moves on: frontier, results and
counter are untouched, so the URL is never re-enqueued; and once a URL is
in the visited set, every later dispatch of it in the rest of the run ends
in a silent discard — it is never retried. The loop itself is a total
function: every run returns a final state with its (possibly empty) result
collection. -/
theorem fetch_failure_terminal (env : CrawlEnv) :
    (∀ (st : CrawlerState) (u : URLInfo) (now : Nat),
      st.urlStorage.isURLSeen u.url = false → u.depth ≤ env.maxDepth →
      env.fetch u.url = none →
      processURL env st u now
        = ({ st with urlStorage := st.urlStorage.markAsVisited u.url },
           .fetchFailed)) ∧
    (∀ (fuel : Nat) (times : List Nat) (st : CrawlerState) (x : String),
      st.urlStorage.isURLSeen x = true →
      ∀ e ∈ (crawlLoop env fuel times st).2, e.info.url = x →
        e.outcome = .discarded) :=
  ⟨fun st u now h1 h2 h3 => processURL_fetchFailed env st u now h1 h2 h3,
   fun fuel times st x hx => crawlLoop_url_seen_discarded env fuel times st x hx⟩

/-- Witness for C9: a concrete failing fetch is marked visited and nothing
else changes; a concrete already-visited URL is only ever discarded later. -/
theorem fetch_failure_terminal_witness :
    ((initState 0).urlStorage.isURLSeen uD.url = false) ∧
    (exEnv.fetch uD.url = none) ∧
    processURL exEnv (initState 0) uD 0
      = ({ initState 0 with
            urlStorage := (initState 0).urlStorage.markAsVisited uD.url },
         .fetchFailed) ∧
    (seenState.urlStorage.isURLSeen "A" = true) ∧
    (∀ e ∈ (crawlLoop exEnv 4 [0, 0, 0, 0] seenState).2, e.info.url = "A" →
      e.outcome = .discarded) :=
  ⟨rfl, rfl,
   (fetch_failure_terminal exEnv).1 (initState 0) uD 0 rfl (by decide) rfl,
   rfl,
   (fetch_failure_terminal exEnv).2 4 [0, 0, 0, 0] seenState "A" rfl⟩

/-- C10: the result collection holds at most one record per URL — built by
any sequence of `store` calls from the empty storage, `getAllResults` never
returns two records with the same `url` field — because `store` on a key
already present replaces the previous record in place (same length, new
value) instead of appending a second entry. -/
theorem content_storage_url_unique (rs : List CrawlResult) (s : ContentStorage)
    (r : CrawlResult) :
    ((((rs.foldl ContentStorage.store emptyCS).getAllResults).map
      (fun cr => cr.url)).Nodup) ∧
    ((s.store r).storage.length =
      if (s.storage.map (fun e => e.1)).contains r.url then s.storage.length
      else s.storage.length + 1) ∧
    (lookupA (s.store r).storage r.url = some r) :=
  ⟨keysInv_urls_nodup _ (foldl_store_keysInv rs),
   mapSet_length s.storage r.url r,
   lookupA_mapSet_self s.storage r.url r⟩
